import Mathlib

/-!
Verification of the Viterbi beat-tracking decoders of the madmom repository.

The embedding covers three decoders:
* `crf_viterbi` — the windowed model from `madmom/features/viterbi.pyx`
  (lookback candidates `i - j`, L1 normalisation per frame);
* `dbn_viterbi` / `dbn_run` — `BeatTrackingDynamicBayesianNetwork.viterbi`
  from the same file (composite beat-phase × tempo state space, L1
  normalisation per frame, uint16 state-index check, `np.empty`
  back-tracking table modelled by an explicit `junk` parameter);
* `mm_viterbi` — the max-normalised composite decoder from the untitled
  Cython source (hard-coded constants, persistent pointer rows).

Probabilities are modelled exactly over `ℚ`; the C `double` log computations
appear in theorem statements as `Real.log` of the rational quantities the
code feeds to `log`.  Division by zero is the Lean convention `q / 0 = 0`
(the C code produces non-finite floats there; the affected claims are
settled on inputs where this matters only through the absence of an error
path, which the model shares with the code).  Contents of buffers the code
allocates with `np.empty` (or initialises to `-1` and never resets) are
modelled by explicit `junk` parameters, since the code may read them.
-/

/-- A transition candidate: predecessor state index and the multiplicative
factor applied to the predecessor's Viterbi value (transition weight times
observation, times the normalisation factor in the windowed model). -/
structure Cand where
  prev : ℕ
  w : ℚ
deriving DecidableEq, Repr

/-- Score of a candidate given the previous-frame Viterbi vector. -/
def candScore (vp : ℕ → ℚ) (c : Cand) : ℚ := vp c.prev * c.w

/-- The inner candidate fold shared by every decoder variant: the running
best value starts at the reset value (0 in every decoder) and a later
candidate replaces value and pointer only if its score is strictly
greater (`new_prob > v_c[i]` / `cur > current_viterbi[state]`). -/
def updateCell (vp : ℕ → ℚ) : List Cand → ℚ × ℕ → ℚ × ℕ
  | [], acc => acc
  | c :: cs, acc =>
    if acc.1 < candScore vp c then updateCell vp cs (candScore vp c, c.prev)
    else updateCell vp cs acc

/-- The `np.max` of a vector (head-seeded fold; 0 for the empty vector,
which the code never queries). -/
def listMaxQ : List ℚ → ℚ
  | [] => 0
  | x :: xs => xs.foldl max x

/-- Auxiliary fold for `np.argmax`: first index of the maximum. -/
def listArgmaxAux : List ℚ → ℕ → ℕ × ℚ → ℕ × ℚ
  | [], _, acc => acc
  | x :: xs, i, acc =>
    if acc.2 < x then listArgmaxAux xs (i + 1) (i, x)
    else listArgmaxAux xs (i + 1) acc

/-- Embeds `np.argmax`: index of the first occurrence of the maximum (0 on the
empty vector). -/
def listArgmax (v : List ℚ) : ℕ :=
  match v with
  | [] => 0
  | x :: xs => (listArgmaxAux xs 1 (0, x)).1

/-- Back-tracking loop of the composite decoder
(`for frame in range(num_observations - 1, -1, -1): path[frame] = state;
state = back_tracking_pointers[frame, state]`), fed with the pointer rows
in reverse frame order: each row is paired with one emitted path entry,
the state being emitted before the row is read, so the last row read
(frame 0) no longer contributes an entry. -/
def backtrack_read_then_step : List (List ℕ) → ℕ → List ℕ
  | [], _ => []
  | row :: rest, s => s :: backtrack_read_then_step rest (row.getD s 0)

/-- Back-tracking loop of the windowed decoder (`path[num_x - 1] =
next_state; for i in range(num_x - 2, -1, -1): next_state = bps[i,
next_state]; path[i] = next_state`), fed with the pointer rows in reverse
frame order: the seed state is emitted first, then one entry per row. -/
def backtrack_steps : List (List ℕ) → ℕ → List ℕ
  | [], s => [s]
  | row :: rest, s => s :: backtrack_steps rest (row.getD s 0)

/-- C `unsigned int` (32-bit) value of an integer expression. -/
def u32 (x : ℤ) : ℕ := (x % 4294967296).toNat

/-! ### Composite model: `BeatTrackingDynamicBayesianNetwork.viterbi` -/

/-- Configuration of the dynamic Bayesian network (the constructor
arguments cached at the top of `viterbi`). -/
structure DBNConfig where
  num_beat_states : ℕ
  tempo_states : List ℕ
  tempo_change_probability : ℚ
  observation_lambda : ℕ
deriving DecidableEq, Repr

/-- The state count `num_states = num_beat_states * len(self.tempo_states)`. -/
def DBNConfig.num_states (c : DBNConfig) : ℕ :=
  c.num_beat_states * c.tempo_states.length

/-- Observation model: states with `beat_state < num_beat_states /
observation_lambda` (C unsigned division) emit the activation, the rest
emit `(1 - activation) / (observation_lambda - 1)` (the `- 1` computed in
C unsigned arithmetic). -/
def dbn_observation (c : DBNConfig) (a : ℚ) (s : ℕ) : ℚ :=
  if s % c.num_beat_states < c.num_beat_states / c.observation_lambda then a
  else (1 - a) / (u32 ((c.observation_lambda : ℤ) - 1) : ℚ)

/-- The candidate list the composite decoder evaluates at state `s`
(in evaluation order): same tempo always; from slower tempo if
`tempo_state > 0`; from faster tempo if `tempo_state <
num_tempo_states - 1`.  The beat-phase subtractions are C unsigned
arithmetic (`u32`), the offsets being `tempo`, `tempo - 1`, `tempo + 1`
where `tempo = tempo_states[tempo_state]`. -/
def dbn_cands (c : DBNConfig) (a : ℚ) (s : ℕ) : List Cand :=
  let b := s % c.num_beat_states
  let t := s / c.num_beat_states
  let tempo : ℤ := (c.tempo_states.getD t 0 : ℤ)
  let obs := dbn_observation c a s
  [Cand.mk (u32 ((b : ℤ) + (c.num_beat_states : ℤ) - tempo) % c.num_beat_states
      + t * c.num_beat_states) ((1 - c.tempo_change_probability) * obs)]
  ++ (if 0 < t then
      [Cand.mk (u32 ((b : ℤ) + (c.num_beat_states : ℤ) - (tempo - 1)) % c.num_beat_states
        + (t - 1) * c.num_beat_states) (1/2 * c.tempo_change_probability * obs)]
    else [])
  ++ (if t < c.tempo_states.length - 1 then
      [Cand.mk (u32 ((b : ℤ) + (c.num_beat_states : ℤ) - (tempo + 1)) % c.num_beat_states
        + (t + 1) * c.num_beat_states) (1/2 * c.tempo_change_probability * obs)]
    else [])

/-- Trellis state of the composite decoder: normalised previous-frame
vector, the last frame's raw (unnormalised) `current_viterbi`, the list
of per-frame sums fed to `log`, and the back-tracking rows. -/
structure DBNState where
  prev_viterbi : List ℚ
  current_viterbi : List ℚ
  sums : List ℚ
  bps : List (List ℕ)
deriving Repr

/-- One frame of the composite decoder: per-state candidate fold with
reset value 0, then L1 normalisation of the frame vector (the raw vector
is kept as `current_viterbi`, mirroring the numpy array the final `argmax`
and `max` read). -/
def dbn_step (c : DBNConfig) (junk : ℕ → ℕ → ℕ) (st : DBNState) (a : ℚ) : DBNState :=
  let n := c.num_states
  let vp := fun i => st.prev_viterbi.getD i 0
  let cur := (List.range n).map fun s => (updateCell vp (dbn_cands c a s) (0, junk st.bps.length s)).1
  let row := (List.range n).map fun s => (updateCell vp (dbn_cands c a s) (0, junk st.bps.length s)).2
  let vsum := cur.sum
  ⟨cur.map (· / vsum), cur, st.sums ++ [vsum], st.bps ++ [row]⟩

/-- The forward pass of the composite decoder.  `junk frame s` models the
uninitialised `np.empty` cell of the back-tracking table (read back when no
candidate beats the reset value 0); `junk0` models the uninitialised
`np.empty` initial `current_viterbi` buffer (read when there are no
observations).  The prior is the all-ones vector. -/
def dbn_run (c : DBNConfig) (junk : ℕ → ℕ → ℕ) (junk0 : List ℚ) (acts : List ℚ) : DBNState :=
  acts.foldl (dbn_step c junk) ⟨List.replicate c.num_states 1, junk0, [], []⟩

/-- Path reconstruction of the composite decoder: the loop visits frames
`num_observations - 1` down to 0 inclusive, reading the pointer row of
every visited frame, frame 0 included. -/
def dbn_backtrack (bps : List (List ℕ)) (s : ℕ) : List ℕ :=
  (backtrack_read_then_step bps.reverse s).reverse

/-- Message of the `AssertionError` raised by the state-count check. -/
def dbn_states_error : String :=
  "DBN can handle only 65535 states"

/-- Embeds `BeatTrackingDynamicBayesianNetwork.viterbi`: checks the state count
against `np.iinfo(np.uint16).max`, runs the forward pass and back-tracks
from the first argmax of the final raw frame vector.  `acts` is the
observation memoryview the loop reads (when `norm_observations` is set
the method first rescales the stored observations by their maximum; the
claims are about the decode given those values).  Returns the path; the
log-probability the method also returns is stated in the theorems as
`Real.log` of the quantities in `dbn_run` (the per-frame sums and the
final raw maximum). -/
def dbn_viterbi (c : DBNConfig) (junk : ℕ → ℕ → ℕ) (junk0 : List ℚ)
    (acts : List ℚ) : Except String (List ℕ) :=
  if 65535 < c.num_states then Except.error dbn_states_error
  else
    let st := dbn_run c junk junk0 acts
    Except.ok (dbn_backtrack st.bps (listArgmax st.current_viterbi))

/-- The transition factor between two composite states as a function of
the two state indices: weight `1 - tempo_change_probability` inside one
tempo block, `0.5 * tempo_change_probability` across blocks, times the
observation of the destination state. -/
def dbn_step_term (c : DBNConfig) (a : ℚ) (sp s : ℕ) : ℚ :=
  (if sp / c.num_beat_states = s / c.num_beat_states
    then 1 - c.tempo_change_probability
    else 1/2 * c.tempo_change_probability) * dbn_observation c a s

/-- Product of the transition-weight and observation terms along the tail
of a composite path, starting from predecessor state `sp`. -/
def dbn_path_steps (c : DBNConfig) : ℕ → List ℚ → List ℕ → ℚ
  | _, [], [] => 1
  | sp, a :: arest, s :: srest => dbn_step_term c a sp s * dbn_path_steps c s arest srest
  | _, _, _ => 0

/-- Product of the prior, transition-weight and observation terms along a
composite path (the uniform prior is 1; the frame-0 factor is the
same-tempo weight times the observation, the transition weight out of the
all-ones prior). -/
def dbn_path_product (c : DBNConfig) : List ℚ → List ℕ → ℚ
  | [], [] => 1
  | a :: arest, s :: srest =>
    ((1 - c.tempo_change_probability) * dbn_observation c a s) *
      dbn_path_steps c s arest srest
  | _, _ => 0

/-! ### Windowed model: `crf_viterbi` (madmom/features/viterbi.pyx) -/

/-- Candidate list of the windowed decoder at state `i`: predecessors
`i - j` for `j = 0, 1, ...`, stopping at the first `j` with `i - j < 0`
or at `num_tr`; the factor is
`transition[j] * activations[i] * norm_factor[i - j]`. -/
def crf_cands (transition norm_factor activations : List ℚ) (i : ℕ) : List Cand :=
  (List.range (min transition.length (i + 1))).map fun j =>
    Cand.mk (i - j)
      (transition.getD j 0 * activations.getD i 0 * norm_factor.getD (i - j) 0)

/-- Trellis state of the windowed decoder: normalised Viterbi vector
(`v_p` after the swap), the raw vector it was normalised from (`v_c`
before the division), the per-iteration sums fed to `log` (`log_sum`
accumulates exactly their logs), and the back-tracking rows. -/
structure CRFState where
  v_p : List ℚ
  v_c : List ℚ
  sums : List ℚ
  bps : List (List ℕ)
deriving Repr

/-- One iteration of the windowed decoder's beat loop: candidate fold per
state with reset value 0, L1 normalisation, `log_sum += log(sum_k)`. -/
def crf_step (transition norm_factor activations : List ℚ)
    (junkRow : ℕ → ℕ) (st : CRFState) : CRFState :=
  let n := activations.length
  let vp := fun i => st.v_p.getD i 0
  let cur := (List.range n).map fun i =>
    (updateCell vp (crf_cands transition norm_factor activations i) (0, junkRow i)).1
  let row := (List.range n).map fun i =>
    (updateCell vp (crf_cands transition norm_factor activations i) (0, junkRow i)).2
  let sum_k := cur.sum
  ⟨cur.map (· / sum_k), cur, st.sums ++ [sum_k], st.bps ++ [row]⟩

/-- Final-state selection of the windowed decoder: `path_prob = 0.0` then
`if v_p[i] > path_prob` in index order; the state variable is
uninitialised when no entry beats 0, modelled by `junk_state`. -/
def crfFinal (v : List ℚ) (junk_state : ℕ) : ℕ × ℚ :=
  (List.range v.length).foldl
    (fun acc i => if acc.2 < v.getD i 0 then (i, v.getD i 0) else acc)
    (junk_state, 0)

/-- Initialisation of the windowed decoder: `v_p[i] = pi[i] *
activations[i]`, then divide by the accumulated sum (which is *not*
added to `log_sum`). -/
def crf_init (pi activations : List ℚ) : CRFState :=
  let c0 := (List.range activations.length).map fun i =>
    pi.getD i 0 * activations.getD i 0
  ⟨c0.map (· / c0.sum), c0, [], []⟩

/-- The first `k` iterations of the windowed decoder's beat loop. -/
def crf_run (transition norm_factor activations : List ℚ) (junk : ℕ → ℕ → ℕ)
    (init : CRFState) (k : ℕ) : CRFState :=
  (List.range k).foldl
    (fun s j => crf_step transition norm_factor activations (junk j) s) init

/-- Path reconstruction of the windowed decoder, seeded with the selected
final state; every one of the `num_x - 1` pointer rows is consumed. -/
def crf_backtrack (bps : List (List ℕ)) (s : ℕ) : List ℕ :=
  (backtrack_steps bps.reverse s).reverse

/-- Embeds the windowed `crf_viterbi`: the init normalises `pi * activations` by its sum
(without adding that sum's log to `log_sum`), then runs `num_x - 1`
iterations, selects the final state by strict comparison against 0 over
the normalised final vector, and back-tracks through all `num_x - 1`
pointer rows.  Returns `(path, path_prob, sums, sum_0)` where `path_prob`
is the value whose log the code adds to `log_sum` (the maximum of the
final normalised vector) and `sums` are the `log_sum` arguments. -/
def crf_viterbi (pi transition norm_factor activations : List ℚ) (tau : ℕ)
    (junk : ℕ → ℕ → ℕ) (junk_state : ℕ) : List ℕ × ℚ × List ℚ × ℚ :=
  let num_x := activations.length / tau
  let st := crf_run transition norm_factor activations junk
    (crf_init pi activations) (num_x - 1)
  let fin := crfFinal st.v_p junk_state
  (crf_backtrack st.bps fin.1, fin.2, st.sums, (crf_init pi activations).v_c.sum)

/-- The factor the windowed model multiplies along a path step from state
`sp` to state `s` (offset `j = s - sp`):
`transition[s - sp] * activations[s] * norm_factor[sp]`. -/
def crf_step_term (transition norm_factor activations : List ℚ) (sp s : ℕ) : ℚ :=
  transition.getD (s - sp) 0 * activations.getD s 0 * norm_factor.getD sp 0

/-- Product of the transition, activation and normalisation factors along
the tail of a windowed path, starting from predecessor state `sp`. -/
def crf_path_steps (transition norm_factor activations : List ℚ) : ℕ → List ℕ → ℚ
  | _, [] => 1
  | sp, s :: srest =>
    crf_step_term transition norm_factor activations sp s *
      crf_path_steps transition norm_factor activations s srest

/-- The exact total path probability of the windowed model: prior times
first activation, times the transition/activation/normalisation factors
along the path. -/
def crf_path_product (pi transition norm_factor activations : List ℚ) : List ℕ → ℚ
  | [] => 1
  | s :: srest =>
    pi.getD s 0 * activations.getD s 0 *
      crf_path_steps transition norm_factor activations s srest

/-! ### Max-normalised composite model: `mm_viterbi` -/

/-- The candidate list `mm_viterbi` evaluates at state `s` (Python `%`
semantics, hence `Int.emod`): same tempo always; from slower tempo only if
`tempo > min_tempo = 5`; from faster tempo if `tempo < max_tempo - 1 = 22`;
with the hard-coded constants `psi = 640`, `l = 16`, `p = 0.002`. -/
def mm_cands (a : ℚ) (s : ℕ) : List Cand :=
  let pib := s % 640
  let tempo := s / 640
  let obs := if pib < 640 / 16 then a else (1 - a) / 15
  [Cand.mk ((((pib : ℤ) - (tempo : ℤ)) % 640).toNat + tempo * 640)
      ((1 - 1/500) * obs)]
  ++ (if 5 < tempo then
      [Cand.mk ((((pib : ℤ) - ((tempo : ℤ) - 1)) % 640).toNat + (tempo - 1) * 640)
        (1/2 * (1/500) * obs)]
    else [])
  ++ (if tempo < 22 then
      [Cand.mk ((((pib : ℤ) - ((tempo : ℤ) + 1)) % 640).toNat + (tempo + 1) * 640)
        (1/2 * (1/500) * obs)]
    else [])

/-- Trellis state of `mm_viterbi`: normalised previous vector, raw current
vector, the persistent `current_pointers` row (initialised once, never
reset, so stale entries survive), and the appended row copies. -/
structure MMState where
  prev_viterbi : List ℚ
  current_viterbi : List ℚ
  pointers : List ℕ
  bps : List (List ℕ)
deriving Repr

/-- One frame of `mm_viterbi`: candidate fold per state seeded with the
persistent pointer row, row appended to `bps`, then max normalisation. -/
def mm_step (st : MMState) (a : ℚ) : MMState :=
  let vp := fun i => st.prev_viterbi.getD i 0
  let cur := (List.range 14720).map fun s =>
    (updateCell vp (mm_cands a s) (0, st.pointers.getD s 0)).1
  let row := (List.range 14720).map fun s =>
    (updateCell vp (mm_cands a s) (0, st.pointers.getD s 0)).2
  let m := listMaxQ cur
  ⟨cur.map (· / m), cur, row, st.bps ++ [row]⟩

/-- Path reconstruction of `mm_viterbi`: `for i in range(1, len(bps)):
next_state = bps[-i][next_state]` — the row of frame 0 is skipped. -/
def mm_backtrack (bps : List (List ℕ)) (s : ℕ) : List ℕ :=
  (backtrack_steps bps.reverse.dropLast s).reverse

/-- The body of `mm_viterbi` with the hard-coded constants
(640 beat states, 23 tempo indices, lambda 16, change probability 0.002).
`junk_init` models the `-1` the pointer row is initialised with. -/
def mm_viterbi_core (activations : List ℚ) (junk_init : ℕ) : List ℕ :=
  let st := activations.foldl mm_step
    ⟨List.replicate 14720 1, List.replicate 14720 0, List.replicate 14720 junk_init, []⟩
  mm_backtrack st.bps (listArgmax st.current_viterbi)

/-- Embeds `mm_viterbi` as exposed: its five keyword parameters are accepted but
the body decodes with internal constants only. -/
def mm_viterbi (activations : List ℚ) (num_beat_cells : ℕ)
    (tempo_change_probability : ℚ) (beat_lambda : ℕ) (min_bpm : ℕ)
    (max_bpm : ℕ) (junk_init : ℕ) : List ℕ :=
  mm_viterbi_core activations junk_init

/-! ### Beat extraction (`BeatTrackingDynamicBayesianNetwork.beats`,
`correct` mode) -/

/-- The `beat_range` mask: frames whose beat phase is below
`num_beat_states / observation_lambda` (integer division, as compiled). -/
def beat_range_list (path : List ℕ) (nbs lam : ℕ) : List Bool :=
  path.map fun s => decide (s % nbs < nbs / lam)

/-- Embeds `np.nonzero(np.diff(beat_range))[0] + 1`: positions following a
True/False change, in order. -/
def change_points_from : ℕ → List Bool → List ℕ
  | _, [] => []
  | _, [_] => []
  | i, x :: y :: rest =>
    (if x = y then [] else [i + 1]) ++ change_points_from (i + 1) (y :: rest)

/-- Last element of a boolean list (`beat_range[-1]`), False on empty. -/
def lastD (l : List Bool) : Bool := l.getD (l.length - 1) false

/-- The boundary index list the `correct` branch builds: the change
points, with 0 prepended when the first frame is in the beat range and the
length appended when the last frame is. -/
def region_bounds (b : List Bool) : List ℕ :=
  (if b.getD 0 false then [0] else []) ++ change_points_from 0 b ++
    (if lastD b then [b.length] else [])

/-- Embeds `idx.reshape((-1, 2))`: consecutive pairs. -/
def pairup : List ℕ → List (ℕ × ℕ)
  | l :: r :: rest => (l, r) :: pairup rest
  | _ => []

/-- Embeds `np.argmax(self.observations[left:right]) + left`. -/
def slice_argmax (obs : List ℚ) (l r : ℕ) : ℕ :=
  listArgmax ((obs.drop l).take (r - l)) + l

/-- The `correct` branch of the `beats` property: one representative frame
per boundary pair, the first argmax of the raw observations over the
half-open interval. -/
def dbn_beats_correct (path : List ℕ) (obs : List ℚ) (nbs lam : ℕ) : List ℕ :=
  (pairup (region_bounds (beat_range_list path nbs lam))).map fun pr =>
    slice_argmax obs pr.1 pr.2

/-- Modelled from the spec: the maximal contiguous runs of beat-range
frames as half-open `[left, right)` intervals, a run starting at frame 0
or ending at the last frame included (used to compare the code's boundary
pairing against §4.5's wording). -/
def runsAux : List Bool → ℕ → Option ℕ → List (ℕ × ℕ)
  | [], _, none => []
  | [], i, some l => [(l, i)]
  | true :: rest, i, none => runsAux rest (i + 1) (some i)
  | true :: rest, i, some l => runsAux rest (i + 1) (some l)
  | false :: rest, i, none => runsAux rest (i + 1) none
  | false :: rest, i, some l => (l, i) :: runsAux rest (i + 1) none

/-- Modelled from the spec: maximal True runs of a boolean list. -/
def maximal_runs (b : List Bool) : List (ℕ × ℕ) := runsAux b 0 none

/-- Proof-internal recursive form of the boundary list: `prev` is the
value of the previous frame (False before frame 0); a boundary is emitted
at every change, and a closing boundary at the end of a final True run. -/
def boundsAux : ℕ → Bool → List Bool → List ℕ
  | i, prev, [] => if prev then [i] else []
  | i, prev, x :: rest => (if prev = x then [] else [i]) ++ boundsAux (i + 1) x rest

/-- The interval list flattened back to its boundary points. -/
def flattenPairs : List (ℕ × ℕ) → List ℕ
  | [] => []
  | (l, r) :: rest => l :: r :: flattenPairs rest

/-! ### Claim-text formulations (for the refinement comparisons) -/

/-- The candidate list as claim C2 words it for the composite decoder:
the slower (resp. faster) candidate uses `tempoStates[t-1]` (resp.
`tempoStates[t+1]`) as the beat-phase step, present iff `t > 0` (resp.
`t < |tempoStates| - 1`). -/
def dbn_cands_claim (c : DBNConfig) (a : ℚ) (s : ℕ) : List Cand :=
  let b := s % c.num_beat_states
  let t := s / c.num_beat_states
  let obs := dbn_observation c a s
  [Cand.mk ((((b : ℤ) - (c.tempo_states.getD t 0 : ℤ) + (c.num_beat_states : ℤ)) %
      (c.num_beat_states : ℤ)).toNat + t * c.num_beat_states)
    ((1 - c.tempo_change_probability) * obs)]
  ++ (if 0 < t then
      [Cand.mk ((((b : ℤ) - (c.tempo_states.getD (t - 1) 0 : ℤ) + (c.num_beat_states : ℤ)) %
          (c.num_beat_states : ℤ)).toNat + (t - 1) * c.num_beat_states)
        (1/2 * c.tempo_change_probability * obs)]
    else [])
  ++ (if t < c.tempo_states.length - 1 then
      [Cand.mk ((((b : ℤ) - (c.tempo_states.getD (t + 1) 0 : ℤ) + (c.num_beat_states : ℤ)) %
          (c.num_beat_states : ℤ)).toNat + (t + 1) * c.num_beat_states)
        (1/2 * c.tempo_change_probability * obs)]
    else [])

/-- The candidate list as claim C2 words it for `mm_viterbi`, whose tempo
states are the indices `0..22` themselves: slower candidate present iff
`t > 0`, faster iff `t < 22`. -/
def mm_cands_claim (a : ℚ) (s : ℕ) : List Cand :=
  let pib := s % 640
  let tempo := s / 640
  let obs := if pib < 640 / 16 then a else (1 - a) / 15
  [Cand.mk ((((pib : ℤ) - (tempo : ℤ) + 640) % 640).toNat + tempo * 640)
      ((1 - 1/500) * obs)]
  ++ (if 0 < tempo then
      [Cand.mk ((((pib : ℤ) - ((tempo : ℤ) - 1) + 640) % 640).toNat + (tempo - 1) * 640)
        (1/2 * (1/500) * obs)]
    else [])
  ++ (if tempo < 22 then
      [Cand.mk ((((pib : ℤ) - ((tempo : ℤ) + 1) + 640) % 640).toNat + (tempo + 1) * 640)
        (1/2 * (1/500) * obs)]
    else [])

/-- The amended candidate description for the composite decoder: identical
to the claim except that the slower (resp. faster) candidate's beat-phase
step is `tempoStates[t] - 1` (resp. `tempoStates[t] + 1`), one beat-state
less (resp. more) than the current tempo value. -/
def dbn_cands_amended (c : DBNConfig) (a : ℚ) (s : ℕ) : List Cand :=
  let b := s % c.num_beat_states
  let t := s / c.num_beat_states
  let tempo : ℤ := (c.tempo_states.getD t 0 : ℤ)
  let obs := dbn_observation c a s
  [Cand.mk ((((b : ℤ) - tempo + (c.num_beat_states : ℤ)) %
      (c.num_beat_states : ℤ)).toNat + t * c.num_beat_states)
    ((1 - c.tempo_change_probability) * obs)]
  ++ (if 0 < t then
      [Cand.mk ((((b : ℤ) - (tempo - 1) + (c.num_beat_states : ℤ)) %
          (c.num_beat_states : ℤ)).toNat + (t - 1) * c.num_beat_states)
        (1/2 * c.tempo_change_probability * obs)]
    else [])
  ++ (if t < c.tempo_states.length - 1 then
      [Cand.mk ((((b : ℤ) - (tempo + 1) + (c.num_beat_states : ℤ)) %
          (c.num_beat_states : ℤ)).toNat + (t + 1) * c.num_beat_states)
        (1/2 * c.tempo_change_probability * obs)]
    else [])

/-- The amended candidate description for `mm_viterbi`: as the claim, but
the slower candidate is present iff the tempo index exceeds 5 (the
hard-coded `min_tempo`), not iff it exceeds 0. -/
def mm_cands_amended (a : ℚ) (s : ℕ) : List Cand :=
  let pib := s % 640
  let tempo := s / 640
  let obs := if pib < 640 / 16 then a else (1 - a) / 15
  [Cand.mk ((((pib : ℤ) - (tempo : ℤ) + 640) % 640).toNat + tempo * 640)
      ((1 - 1/500) * obs)]
  ++ (if 5 < tempo then
      [Cand.mk ((((pib : ℤ) - ((tempo : ℤ) - 1) + 640) % 640).toNat + (tempo - 1) * 640)
        (1/2 * (1/500) * obs)]
    else [])
  ++ (if tempo < 22 then
      [Cand.mk ((((pib : ℤ) - ((tempo : ℤ) + 1) + 640) % 640).toNat + (tempo + 1) * 640)
        (1/2 * (1/500) * obs)]
    else [])

/-- The state-count acceptance predicate as claim C8 words it: reject only
configurations needing more than 65536 states. -/
def dbn_states_check_claim (n : ℕ) : Bool := decide (65536 < n)

/-! ## Generic lemmas about the folds -/

lemma le_foldl_max (l : List ℚ) : ∀ a : ℚ, a ≤ l.foldl max a := by
  induction l with
  | nil => intro a; exact le_rfl
  | cons x xs ih => intro a; exact le_trans (le_max_left a x) (ih (max a x))

lemma mem_le_foldl_max (l : List ℚ) : ∀ a x : ℚ, x ∈ l → x ≤ l.foldl max a := by
  induction l with
  | nil => intro a x hx; cases hx
  | cons y ys ih =>
    intro a x hx
    rcases List.mem_cons.mp hx with h | h
    · subst h; exact le_trans (le_max_right a x) (le_foldl_max ys (max a x))
    · exact ih (max a y) x h

lemma foldl_max_init (l : List ℚ) : ∀ a b : ℚ, l.foldl max (max a b) = max a (l.foldl max b) := by
  induction l with
  | nil => intro a b; rfl
  | cons x xs ih =>
    intro a b
    simp only [List.foldl_cons, max_assoc]
    exact ih a (max b x)

lemma listMaxQ_mem_le (v : List ℚ) (x : ℚ) (hx : x ∈ v) : x ≤ listMaxQ v := by
  cases v with
  | nil => cases hx
  | cons y ys =>
    rcases List.mem_cons.mp hx with h | h
    · subst h; exact le_foldl_max ys x
    · exact mem_le_foldl_max ys y x h

lemma updateCell_fst (vp : ℕ → ℚ) (cs : List Cand) :
    ∀ acc : ℚ × ℕ, (updateCell vp cs acc).1 = (cs.map (candScore vp)).foldl max acc.1 := by
  induction cs with
  | nil => intro acc; rfl
  | cons c cs ih =>
    intro acc
    simp only [updateCell, List.map_cons, List.foldl_cons]
    by_cases h : acc.1 < candScore vp c
    · rw [if_pos h, ih, max_eq_right (le_of_lt h)]
    · rw [if_neg h, ih, max_eq_left (le_of_not_lt h)]

lemma updateCell_le_fst (vp : ℕ → ℚ) (cs : List Cand) (acc : ℚ × ℕ) :
    acc.1 ≤ (updateCell vp cs acc).1 := by
  rw [updateCell_fst]
  exact le_foldl_max _ _

lemma updateCell_snd_of_fst_eq (vp : ℕ → ℚ) (cs : List Cand) :
    ∀ acc : ℚ × ℕ, (updateCell vp cs acc).1 = acc.1 → (updateCell vp cs acc).2 = acc.2 := by
  induction cs with
  | nil => intro acc _; rfl
  | cons c cs ih =>
    intro acc h
    by_cases hc : acc.1 < candScore vp c
    · exfalso
      have h1 : candScore vp c ≤ (updateCell vp (c :: cs) acc).1 := by
        simp only [updateCell, if_pos hc]
        exact updateCell_le_fst vp cs _
      rw [h] at h1
      exact absurd (lt_of_lt_of_le hc h1) (lt_irrefl _)
    · simp only [updateCell, if_neg hc] at h ⊢
      exact ih acc h

lemma updateCell_exists_of_lt (vp : ℕ → ℚ) (cs : List Cand) :
    ∀ acc : ℚ × ℕ, acc.1 < (updateCell vp cs acc).1 →
      ∃ c ∈ cs, (updateCell vp cs acc).1 = candScore vp c ∧
        (updateCell vp cs acc).2 = c.prev := by
  induction cs with
  | nil => intro acc h; exact absurd h (lt_irrefl _)
  | cons c cs ih =>
    intro acc h
    by_cases hc : acc.1 < candScore vp c
    · simp only [updateCell, if_pos hc] at h ⊢
      by_cases h2 : candScore vp c < (updateCell vp cs (candScore vp c, c.prev)).1
      · obtain ⟨d, hd, hv, hp⟩ := ih (candScore vp c, c.prev) h2
        exact ⟨d, List.mem_cons_of_mem c hd, hv, hp⟩
      · have he : (updateCell vp cs (candScore vp c, c.prev)).1 = candScore vp c :=
          le_antisymm (le_of_not_lt h2) (updateCell_le_fst vp cs _)
        refine ⟨c, List.mem_cons_self c cs, he, ?_⟩
        exact updateCell_snd_of_fst_eq vp cs _ he
    · simp only [updateCell, if_neg hc] at h ⊢
      obtain ⟨d, hd, hv, hp⟩ := ih acc h
      exact ⟨d, List.mem_cons_of_mem c hd, hv, hp⟩

lemma updateCell_find_of_lt (vp : ℕ → ℚ) (cs : List Cand) :
    ∀ acc : ℚ × ℕ, acc.1 < (updateCell vp cs acc).1 →
      ∃ c, cs.find? (fun d => decide (candScore vp d = (updateCell vp cs acc).1)) = some c ∧
        (updateCell vp cs acc).2 = c.prev := by
  induction cs with
  | nil => intro acc h; exact absurd h (lt_irrefl _)
  | cons c cs ih =>
    intro acc h
    by_cases hc : acc.1 < candScore vp c
    · simp only [updateCell, if_pos hc] at h ⊢
      by_cases h2 : candScore vp c < (updateCell vp cs (candScore vp c, c.prev)).1
      · obtain ⟨d, hd, hp⟩ := ih (candScore vp c, c.prev) h2
        refine ⟨d, ?_, hp⟩
        rw [List.find?_cons_of_neg, hd]
        simp only [decide_eq_true_eq]
        exact ne_of_lt h2
      · have he : (updateCell vp cs (candScore vp c, c.prev)).1 = candScore vp c :=
          le_antisymm (le_of_not_lt h2) (updateCell_le_fst vp cs _)
        refine ⟨c, ?_, ?_⟩
        · rw [List.find?_cons_of_pos]
          simp only [decide_eq_true_eq]
          exact he.symm
        · exact updateCell_snd_of_fst_eq vp cs _ he
    · simp only [updateCell, if_neg hc] at h ⊢
      obtain ⟨d, hd, hp⟩ := ih acc h
      refine ⟨d, ?_, hp⟩
      rw [List.find?_cons_of_neg, hd]
      simp only [decide_eq_true_eq]
      intro he
      have := updateCell_le_fst vp cs acc
      rw [← he] at h
      exact absurd (lt_of_lt_of_le h (le_of_not_lt hc)) (lt_irrefl _)

/-! ## getD-level helper lemmas -/

lemma range_map_getD (n : ℕ) (f : ℕ → ℚ) (s : ℕ) (hs : s < n) :
    ((List.range n).map f).getD s 0 = f s := by
  rw [List.getD_eq_getElem?_getD, List.getElem?_map, List.getElem?_range hs]
  rfl

lemma range_map_getD_nat (n : ℕ) (f : ℕ → ℕ) (s : ℕ) (hs : s < n) :
    ((List.range n).map f).getD s 0 = f s := by
  rw [List.getD_eq_getElem?_getD, List.getElem?_map, List.getElem?_range hs]
  rfl

lemma getD_map_div (v : List ℚ) (S : ℚ) (i : ℕ) :
    (v.map (· / S)).getD i 0 = v.getD i 0 / S := by
  by_cases hi : i < v.length
  · rw [List.getD_eq_getElem?_getD, List.getElem?_map,
      List.getD_eq_getElem?_getD, List.getElem?_eq_getElem hi]
    rfl
  · rw [List.getD_eq_getElem?_getD, List.getElem?_map,
      List.getD_eq_getElem?_getD, List.getElem?_eq_none (le_of_not_lt hi)]
    simp

lemma getD_replicate_one (n i : ℕ) (hi : i < n) :
    (List.replicate n (1 : ℚ)).getD i 0 = 1 := by
  rw [List.getD_eq_getElem?_getD, List.getElem?_replicate]
  simp [hi]

lemma range_getD_self (v : List ℚ) :
    (List.range v.length).map (fun i => v.getD i 0) = v := by
  apply List.ext_getElem
  · simp
  · intro i h1 h2
    simp only [List.getElem_map, List.getElem_range, List.getD_eq_getElem?_getD,
      List.getElem?_eq_getElem h2, Option.getD_some]

/-! ## argmax / max lemmas -/

lemma listArgmaxAux_spec (v : List ℚ) :
    ∀ (xs : List ℚ) (i j : ℕ) (m : ℚ),
      v.getD j 0 = m → j < v.length →
      (∀ k, k < xs.length → xs.getD k 0 = v.getD (i + k) 0) →
      i + xs.length ≤ v.length →
      v.getD (listArgmaxAux xs i (j, m)).1 0 = (listArgmaxAux xs i (j, m)).2 ∧
        (listArgmaxAux xs i (j, m)).2 = xs.foldl max m ∧
        (listArgmaxAux xs i (j, m)).1 < v.length := by
  intro xs
  induction xs with
  | nil =>
    intro i j m hj hjl _ _
    exact ⟨hj, rfl, hjl⟩
  | cons x xs ih =>
    intro i j m hj hjl hk hlen
    have hx : x = v.getD i 0 := by
      have := hk 0 (Nat.succ_pos _)
      simpa using this
    have hil : i < v.length := by
      have h := hlen
      simp only [List.length_cons] at h
      omega
    have hk' : ∀ k, k < xs.length → xs.getD k 0 = v.getD (i + 1 + k) 0 := by
      intro k hkl
      have := hk (k + 1) (by simpa using Nat.succ_lt_succ hkl)
      simpa [Nat.add_assoc, Nat.add_comm 1 k] using this
    have hlen' : i + 1 + xs.length ≤ v.length := by
      have := hlen
      simp [List.length_cons] at this
      omega
    simp only [listArgmaxAux]
    by_cases h : m < x
    · rw [if_pos h]
      have := ih (i + 1) i x hx.symm hil hk' hlen'
      rcases this with ⟨h1, h2, h3⟩
      refine ⟨h1, ?_, h3⟩
      rw [h2, List.foldl_cons, max_eq_right (le_of_lt h)]
    · rw [if_neg h]
      have := ih (i + 1) j m hj hjl hk' hlen'
      rcases this with ⟨h1, h2, h3⟩
      refine ⟨h1, ?_, h3⟩
      rw [h2, List.foldl_cons, max_eq_left (le_of_not_lt h)]

lemma listArgmax_spec (v : List ℚ) (hv : v ≠ []) :
    v.getD (listArgmax v) 0 = listMaxQ v ∧ listArgmax v < v.length := by
  cases v with
  | nil => exact absurd rfl hv
  | cons x xs =>
    have h := listArgmaxAux_spec (x :: xs) xs 1 0 x (by simp) (by simp)
      (fun k hk => by rw [Nat.add_comm 1 k, List.getD_cons_succ]) (by simp; omega)
    rcases h with ⟨h1, h2, h3⟩
    exact ⟨by rw [listArgmax, h1, h2]; rfl, h3⟩

lemma listMaxQ_pos_of_sum (v : List ℚ) (hpos : ∀ x ∈ v, 0 ≤ x) (hne : v.sum ≠ 0) :
    0 < listMaxQ v := by
  have hex : ∃ x ∈ v, x ≠ 0 := by
    by_contra h
    push_neg at h
    exact hne (List.sum_eq_zero h)
  obtain ⟨x, hxv, hx0⟩ := hex
  have : 0 < x := lt_of_le_of_ne (hpos x hxv) (Ne.symm hx0)
  exact lt_of_lt_of_le this (listMaxQ_mem_le v x hxv)

lemma sum_pos_of_nonneg_ne (v : List ℚ) (hpos : ∀ x ∈ v, 0 ≤ x) (hne : v.sum ≠ 0) :
    0 < v.sum :=
  lt_of_le_of_ne (List.sum_nonneg hpos) (Ne.symm hne)

/-! ## Structural lemmas about the composite decoder -/

lemma dbn_run_nil (c : DBNConfig) (junk : ℕ → ℕ → ℕ) (junk0 : List ℚ) :
    dbn_run c junk junk0 [] =
      ⟨List.replicate c.num_states 1, junk0, [], []⟩ := rfl

lemma dbn_run_snoc (c : DBNConfig) (junk : ℕ → ℕ → ℕ) (junk0 : List ℚ)
    (acts : List ℚ) (a : ℚ) :
    dbn_run c junk junk0 (acts ++ [a]) =
      dbn_step c junk (dbn_run c junk junk0 acts) a := by
  simp [dbn_run, List.foldl_append]

lemma dbn_run_bps_length (c : DBNConfig) (junk : ℕ → ℕ → ℕ) (junk0 : List ℚ)
    (acts : List ℚ) : (dbn_run c junk junk0 acts).bps.length = acts.length := by
  induction acts using List.reverseRecOn with
  | nil => rfl
  | append_singleton as a ih =>
    rw [dbn_run_snoc]
    simp [dbn_step, ih]

lemma dbn_run_sums_length (c : DBNConfig) (junk : ℕ → ℕ → ℕ) (junk0 : List ℚ)
    (acts : List ℚ) : (dbn_run c junk junk0 acts).sums.length = acts.length := by
  induction acts using List.reverseRecOn with
  | nil => rfl
  | append_singleton as a ih =>
    rw [dbn_run_snoc]
    simp [dbn_step, ih]

lemma dbn_step_current_nonneg (c : DBNConfig) (junk : ℕ → ℕ → ℕ) (st : DBNState)
    (a : ℚ) : ∀ x ∈ (dbn_step c junk st a).current_viterbi, 0 ≤ x := by
  intro x hx
  simp only [dbn_step, List.mem_map, List.mem_range] at hx
  obtain ⟨s, _, rfl⟩ := hx
  exact updateCell_le_fst _ _ _

lemma dbn_run_sums_nonneg (c : DBNConfig) (junk : ℕ → ℕ → ℕ) (junk0 : List ℚ)
    (acts : List ℚ) : ∀ S ∈ (dbn_run c junk junk0 acts).sums, 0 ≤ S := by
  induction acts using List.reverseRecOn with
  | nil => intro S hS; cases hS
  | append_singleton as a ih =>
    intro S hS
    rw [dbn_run_snoc] at hS
    simp only [dbn_step, List.mem_append, List.mem_singleton] at hS
    rcases hS with h | h
    · exact ih S h
    · subst h
      apply List.sum_nonneg
      exact dbn_step_current_nonneg c junk (dbn_run c junk junk0 as) a

lemma dbn_backtrack_snoc (bps : List (List ℕ)) (row : List ℕ) (s : ℕ) :
    dbn_backtrack (bps ++ [row]) s = dbn_backtrack bps (row.getD s 0) ++ [s] := by
  simp [dbn_backtrack, backtrack_read_then_step]

lemma backtrack_read_then_step_length (rows : List (List ℕ)) :
    ∀ s, (backtrack_read_then_step rows s).length = rows.length := by
  induction rows with
  | nil => intro s; rfl
  | cons row rest ih =>
    intro s
    simp [backtrack_read_then_step, ih]

lemma dbn_backtrack_length (bps : List (List ℕ)) (s : ℕ) :
    (dbn_backtrack bps s).length = bps.length := by
  simp [dbn_backtrack, backtrack_read_then_step_length]

lemma dbn_cands_prev_lt (c : DBNConfig) (a : ℚ) (s : ℕ)
    (hn : 0 < c.num_beat_states) (hs : s < c.num_states) :
    ∀ d ∈ dbn_cands c a s, d.prev < c.num_states := by
  intro d hd
  have ht : s / c.num_beat_states < c.tempo_states.length := by
    rw [DBNConfig.num_states] at hs
    exact Nat.div_lt_of_lt_mul hs
  have key : ∀ (ph : ℕ) (t' : ℕ), ph < c.num_beat_states →
      t' < c.tempo_states.length →
      ph + t' * c.num_beat_states < c.num_states := by
    intro ph t' hph ht'
    rw [DBNConfig.num_states]
    calc ph + t' * c.num_beat_states < (t' + 1) * c.num_beat_states := by
          rw [add_mul, one_mul, add_comm]
          exact Nat.add_lt_add_left hph _
      _ ≤ c.tempo_states.length * c.num_beat_states := by
          exact Nat.mul_le_mul_right _ ht'
      _ = c.num_beat_states * c.tempo_states.length := mul_comm _ _
  simp only [dbn_cands, List.mem_append, List.mem_singleton] at hd
  rcases hd with (h | h) | h
  · subst h
    exact key _ _ (Nat.mod_lt _ hn) ht
  · rcases Classical.em (0 < s / c.num_beat_states) with hpos | hneg
    · rw [if_pos hpos] at h
      rcases List.mem_singleton.mp h with rfl
      exact key _ _ (Nat.mod_lt _ hn) (lt_of_le_of_lt (Nat.sub_le _ _) ht)
    · rw [if_neg hneg] at h
      cases h
  · rcases Classical.em (s / c.num_beat_states < c.tempo_states.length - 1) with hlt | hge
    · rw [if_pos hlt] at h
      rcases List.mem_singleton.mp h with rfl
      have ht1 : s / c.num_beat_states + 1 < c.tempo_states.length :=
        Nat.add_lt_of_lt_sub hlt
      exact key _ _ (Nat.mod_lt _ hn) ht1
    · rw [if_neg hge] at h
      cases h

lemma dbn_observation_nonneg (c : DBNConfig) (a : ℚ) (s : ℕ)
    (h0 : 0 ≤ a) (h1 : a ≤ 1) : 0 ≤ dbn_observation c a s := by
  unfold dbn_observation
  by_cases h : s % c.num_beat_states < c.num_beat_states / c.observation_lambda
  · rw [if_pos h]; exact h0
  · rw [if_neg h]
    apply div_nonneg
    · linarith
    · exact Nat.cast_nonneg _

lemma dbn_cands_w_le (c : DBNConfig) (a : ℚ) (s : ℕ)
    (h0 : 0 ≤ a) (h1 : a ≤ 1)
    (hp0 : 0 ≤ c.tempo_change_probability)
    (hp1 : c.tempo_change_probability ≤ 2/3) :
    ∀ d ∈ dbn_cands c a s,
      d.w ≤ (1 - c.tempo_change_probability) * dbn_observation c a s := by
  intro d hd
  have hobs := dbn_observation_nonneg c a s h0 h1
  have hw : 1/2 * c.tempo_change_probability ≤ 1 - c.tempo_change_probability := by
    linarith
  simp only [dbn_cands, List.mem_append, List.mem_singleton] at hd
  rcases hd with (h | h) | h
  · subst h; exact le_rfl
  · rcases Classical.em (0 < s / c.num_beat_states) with hpos | hneg
    · rw [if_pos hpos] at h
      rcases List.mem_singleton.mp h with rfl
      exact mul_le_mul_of_nonneg_right hw hobs
    · rw [if_neg hneg] at h; cases h
  · rcases Classical.em (s / c.num_beat_states < c.tempo_states.length - 1) with hlt | hge
    · rw [if_pos hlt] at h
      rcases List.mem_singleton.mp h with rfl
      exact mul_le_mul_of_nonneg_right hw hobs
    · rw [if_neg hge] at h; cases h

lemma dbn_first_val (c : DBNConfig) (a : ℚ) (s : ℕ) (j : ℕ)
    (hn : 0 < c.num_beat_states) (hs : s < c.num_states)
    (h0 : 0 ≤ a) (h1 : a ≤ 1)
    (hp0 : 0 ≤ c.tempo_change_probability)
    (hp1 : c.tempo_change_probability ≤ 2/3)
    (hne : (updateCell (fun i => (List.replicate c.num_states (1 : ℚ)).getD i 0)
      (dbn_cands c a s) (0, j)).1 ≠ 0) :
    (updateCell (fun i => (List.replicate c.num_states (1 : ℚ)).getD i 0)
      (dbn_cands c a s) (0, j)).1 =
      (1 - c.tempo_change_probability) * dbn_observation c a s := by
  set vp := fun i => (List.replicate c.num_states (1 : ℚ)).getD i 0 with hvp
  have hge0 : (0 : ℚ) ≤ (updateCell vp (dbn_cands c a s) (0, j)).1 :=
    updateCell_le_fst vp _ (0, j)
  have hlt : (0 : ℚ) < (updateCell vp (dbn_cands c a s) (0, j)).1 :=
    lt_of_le_of_ne hge0 (Ne.symm hne)
  obtain ⟨d, hd, hv, -⟩ := updateCell_exists_of_lt vp (dbn_cands c a s) (0, j) hlt
  have hdp : d.prev < c.num_states := dbn_cands_prev_lt c a s hn hs d hd
  have hscore : candScore vp d = d.w := by
    rw [candScore, hvp]
    simp only
    rw [getD_replicate_one _ _ hdp, one_mul]
  have hupper : (updateCell vp (dbn_cands c a s) (0, j)).1 ≤
      (1 - c.tempo_change_probability) * dbn_observation c a s := by
    rw [hv, hscore]
    exact dbn_cands_w_le c a s h0 h1 hp0 hp1 d hd
  have hheadmem : Cand.mk
      (u32 ((s % c.num_beat_states : ℤ) + (c.num_beat_states : ℤ) -
        (c.tempo_states.getD (s / c.num_beat_states) 0 : ℤ)) % c.num_beat_states
        + (s / c.num_beat_states) * c.num_beat_states)
      ((1 - c.tempo_change_probability) * dbn_observation c a s) ∈ dbn_cands c a s := by
    simp [dbn_cands]
  have hheadlt := dbn_cands_prev_lt c a s hn hs _ hheadmem
  have hheadscore : candScore vp (Cand.mk
      (u32 ((s % c.num_beat_states : ℤ) + (c.num_beat_states : ℤ) -
        (c.tempo_states.getD (s / c.num_beat_states) 0 : ℤ)) % c.num_beat_states
        + (s / c.num_beat_states) * c.num_beat_states)
      ((1 - c.tempo_change_probability) * dbn_observation c a s)) =
      (1 - c.tempo_change_probability) * dbn_observation c a s := by
    rw [candScore, hvp]
    simp only
    rw [getD_replicate_one _ _ hheadlt, one_mul]
  have hlower : (1 - c.tempo_change_probability) * dbn_observation c a s ≤
      (updateCell vp (dbn_cands c a s) (0, j)).1 := by
    rw [updateCell_fst]
    rw [← hheadscore]
    exact mem_le_foldl_max _ _ _ (List.mem_map_of_mem _ hheadmem)
  exact le_antisymm hupper hlower

lemma dbn_path_steps_snoc (c : DBNConfig) (a : ℚ) (s : ℕ) :
    ∀ (acts : List ℚ) (path : List ℕ) (sp0 : ℕ), path.length = acts.length →
      dbn_path_steps c sp0 (acts ++ [a]) (path ++ [s]) =
        dbn_path_steps c sp0 acts path * dbn_step_term c a (path.getLastD sp0) s := by
  intro acts
  induction acts with
  | nil =>
    intro path sp0 hlen
    rw [List.length_nil, List.length_eq_zero] at hlen
    subst hlen
    simp [dbn_path_steps]
  | cons a0 acts ih =>
    intro path sp0 hlen
    cases path with
    | nil => simp at hlen
    | cons s0 path' =>
      simp only [List.length_cons, Nat.succ_inj] at hlen
      simp only [List.cons_append, dbn_path_steps, List.append_eq]
      rw [ih path' s0 hlen, List.getLastD_cons, mul_assoc]

lemma dbn_path_product_snoc (c : DBNConfig) (acts : List ℚ) (path : List ℕ)
    (a : ℚ) (s sp : ℕ) (hlen : path.length = acts.length) (hne : path ≠ [])
    (hlast : path.getLastD 0 = sp) :
    dbn_path_product c (acts ++ [a]) (path ++ [s]) =
      dbn_path_product c acts path * dbn_step_term c a sp s := by
  cases acts with
  | nil =>
    rw [List.length_nil, List.length_eq_zero] at hlen
    exact absurd hlen hne
  | cons a0 acts' =>
    cases path with
    | nil => exact absurd rfl hne
    | cons s0 path' =>
      simp only [List.length_cons, Nat.succ_inj] at hlen
      simp only [List.cons_append, dbn_path_product, List.append_eq]
      rw [dbn_path_steps_snoc c a s acts' path' s0 hlen]
      rw [List.getLastD_cons] at hlast
      rw [hlast]
      ring

lemma dbn_run_shape (c : DBNConfig) (junk : ℕ → ℕ → ℕ) (junk0 : List ℚ)
    (acts : List ℚ) (hne : acts ≠ []) :
    (dbn_run c junk junk0 acts).prev_viterbi =
      (dbn_run c junk junk0 acts).current_viterbi.map
        (· / (dbn_run c junk junk0 acts).current_viterbi.sum) ∧
    (dbn_run c junk junk0 acts).sums =
      (dbn_run c junk junk0 acts).sums.dropLast ++
        [(dbn_run c junk junk0 acts).current_viterbi.sum] := by
  induction acts using List.reverseRecOn with
  | nil => exact absurd rfl hne
  | append_singleton as a _ =>
    rw [dbn_run_snoc]
    constructor
    · rfl
    · simp [dbn_step]

lemma dbn_cands_w (c : DBNConfig) (a : ℚ) (s : ℕ)
    (hn : 0 < c.num_beat_states) :
    ∀ d ∈ dbn_cands c a s, d.w = dbn_step_term c a d.prev s := by
  intro d hd
  have hdiv : ∀ (ph t' : ℕ), ph < c.num_beat_states →
      (ph + t' * c.num_beat_states) / c.num_beat_states = t' := by
    intro ph t' hph
    rw [Nat.add_mul_div_right _ _ hn, Nat.div_eq_of_lt hph, Nat.zero_add]
  simp only [dbn_cands, List.mem_append, List.mem_singleton] at hd
  rcases hd with (h | h) | h
  · subst h
    simp only [dbn_step_term]
    rw [hdiv _ _ (Nat.mod_lt _ hn), if_pos rfl]
  · rcases Classical.em (0 < s / c.num_beat_states) with hpos | hneg
    · rw [if_pos hpos] at h
      rcases List.mem_singleton.mp h with rfl
      simp only [dbn_step_term]
      rw [hdiv _ _ (Nat.mod_lt _ hn), if_neg (ne_of_lt (Nat.sub_lt hpos one_pos))]
    · rw [if_neg hneg] at h
      cases h
  · rcases Classical.em (s / c.num_beat_states < c.tempo_states.length - 1) with hlt | hge
    · rw [if_pos hlt] at h
      rcases List.mem_singleton.mp h with rfl
      simp only [dbn_step_term]
      rw [hdiv _ _ (Nat.mod_lt _ hn), if_neg (Nat.succ_ne_self _)]
    · rw [if_neg hge] at h
      cases h

lemma dbn_master (c : DBNConfig) (junk : ℕ → ℕ → ℕ) (junk0 : List ℚ)
    (hn : 0 < c.num_beat_states) (hp0 : 0 ≤ c.tempo_change_probability)
    (hp1 : c.tempo_change_probability ≤ 2/3) :
    ∀ acts : List ℚ, acts ≠ [] → (∀ a ∈ acts, 0 ≤ a ∧ a ≤ 1) →
    ∀ s, s < c.num_states →
      (dbn_run c junk junk0 acts).current_viterbi.getD s 0 ≠ 0 →
      (dbn_backtrack (dbn_run c junk junk0 acts).bps s).length = acts.length ∧
      (∀ x ∈ dbn_backtrack (dbn_run c junk junk0 acts).bps s, x < c.num_states) ∧
      dbn_backtrack (dbn_run c junk junk0 acts).bps s ≠ [] ∧
      (dbn_backtrack (dbn_run c junk junk0 acts).bps s).getLastD 0 = s ∧
      dbn_path_product c acts (dbn_backtrack (dbn_run c junk junk0 acts).bps s) =
        (dbn_run c junk junk0 acts).current_viterbi.getD s 0 *
          ((dbn_run c junk junk0 acts).sums.dropLast).prod ∧
      (∀ S ∈ (dbn_run c junk junk0 acts).sums.dropLast, S ≠ 0) := by
  intro acts
  induction acts using List.reverseRecOn with
  | nil => intro h; exact absurd rfl h
  | append_singleton as a ih =>
    intro _ hbounds s hs hcur
    have hab : 0 ≤ a ∧ a ≤ 1 := hbounds a (by simp)
    rw [dbn_run_snoc] at hcur ⊢
    set st' := dbn_run c junk junk0 as with hst'
    have hcur1 : (dbn_step c junk st' a).current_viterbi =
        (List.range c.num_states).map (fun q =>
          (updateCell (fun i => st'.prev_viterbi.getD i 0) (dbn_cands c a q)
            (0, junk st'.bps.length q)).1) := rfl
    have hrow1 : (dbn_step c junk st' a).bps = st'.bps ++
        [(List.range c.num_states).map (fun q =>
          (updateCell (fun i => st'.prev_viterbi.getD i 0) (dbn_cands c a q)
            (0, junk st'.bps.length q)).2)] := rfl
    have hsums1 : (dbn_step c junk st' a).sums = st'.sums ++
        [(dbn_step c junk st' a).current_viterbi.sum] := rfl
    set vp := fun i => st'.prev_viterbi.getD i 0 with hvpdef
    have hval : (dbn_step c junk st' a).current_viterbi.getD s 0 =
        (updateCell vp (dbn_cands c a s) (0, junk st'.bps.length s)).1 := by
      rw [hcur1]; exact range_map_getD _ _ s hs
    rw [hval] at hcur
    have hge0 : (0 : ℚ) ≤ (updateCell vp (dbn_cands c a s) (0, junk st'.bps.length s)).1 :=
      updateCell_le_fst vp _ _
    have hlt0 : (0 : ℚ) < (updateCell vp (dbn_cands c a s) (0, junk st'.bps.length s)).1 :=
      lt_of_le_of_ne hge0 (Ne.symm hcur)
    obtain ⟨d, hd, hv, hpr⟩ :=
      updateCell_exists_of_lt vp (dbn_cands c a s) (0, junk st'.bps.length s) hlt0
    have hdp : d.prev < c.num_states := dbn_cands_prev_lt c a s hn hs d hd
    have hrowval : ((List.range c.num_states).map (fun q =>
        (updateCell vp (dbn_cands c a q) (0, junk st'.bps.length q)).2)).getD s 0 = d.prev := by
      rw [range_map_getD_nat _ _ s hs, hpr]
    have hstep : dbn_backtrack ((dbn_step c junk st' a).bps) s =
        dbn_backtrack st'.bps d.prev ++ [s] := by
      rw [hrow1, dbn_backtrack_snoc, hrowval]
    rcases eq_or_ne as [] with rfl | hne'
    · -- first frame: the prior is the all-ones vector
      have hval2 : (updateCell vp (dbn_cands c a s) (0, junk st'.bps.length s)).1 =
          (1 - c.tempo_change_probability) * dbn_observation c a s := by
        apply dbn_first_val c a s _ hn hs hab.1 hab.2 hp0 hp1
        exact hcur
      rw [hstep]
      have hbt : dbn_backtrack st'.bps d.prev = [] := rfl
      rw [hbt, List.nil_append]
      refine ⟨by simp, ?_, by simp, by simp, ?_, ?_⟩
      · intro x hx
        rcases List.mem_singleton.mp hx with rfl
        exact hs
      · have hprod : dbn_path_product c ([] ++ [a]) [s] =
            (1 - c.tempo_change_probability) * dbn_observation c a s := by
          simp [dbn_path_product, dbn_path_steps]
        rw [hprod, hval, hval2]
        have : (dbn_step c junk st' a).sums.dropLast = [] := by
          rw [hsums1]
          rfl
        rw [this]
        simp
      · intro S hS
        have : (dbn_step c junk st' a).sums.dropLast = [] := by
          rw [hsums1]
          rfl
        rw [this] at hS
        cases hS
    · -- later frame: use the shape of the previous state and the IH
      obtain ⟨hshape1, hshape2⟩ := dbn_run_shape c junk junk0 as hne'
      rw [← hst'] at hshape1 hshape2
      have hvpd : vp d.prev = st'.current_viterbi.getD d.prev 0 / st'.current_viterbi.sum := by
        rw [hvpdef]
        simp only
        rw [hshape1]
        exact getD_map_div _ _ _
      have hscorene : vp d.prev * d.w ≠ 0 := by
        rw [← candScore, ← hv]
        exact hcur
      have hvpne : vp d.prev ≠ 0 := fun h => hscorene (by rw [h, zero_mul])
      have hwne : d.w ≠ 0 := fun h => hscorene (by rw [h, mul_zero])
      have hnum_ne : st'.current_viterbi.getD d.prev 0 ≠ 0 ∧ st'.current_viterbi.sum ≠ 0 := by
        rw [hvpd] at hvpne
        exact div_ne_zero_iff.mp hvpne
      have ihres := ih hne' (fun x hx => hbounds x (List.mem_append_left _ hx))
        d.prev hdp hnum_ne.1
      obtain ⟨ihlen, ihmem, ihne, ihlast, ihprod, ihz⟩ := ihres
      rw [hstep]
      refine ⟨?_, ?_, ?_, ?_, ?_, ?_⟩
      · rw [List.length_append, ihlen]
        simp
      · intro x hx
        rcases List.mem_append.mp hx with h | h
        · exact ihmem x h
        · rcases List.mem_singleton.mp h with rfl
          exact hs
      · simp
      · rw [List.getLastD_eq_getLast?, List.getLast?_concat]
        rfl
      · have hplen : (dbn_backtrack st'.bps d.prev).length = as.length := ihlen
        rw [dbn_path_product_snoc c as (dbn_backtrack st'.bps d.prev) a s d.prev
          hplen ihne ihlast]
        rw [ihprod]
        have hterm : dbn_step_term c a d.prev s = d.w :=
          (dbn_cands_w c a s hn d hd).symm
        rw [hterm, hval, hv, candScore, hvpd]
        have hdrop : (dbn_step c junk st' a).sums.dropLast = st'.sums := by
          rw [hsums1, List.dropLast_concat]
        rw [hdrop]
        have hsum_split : st'.sums.prod = st'.sums.dropLast.prod * st'.current_viterbi.sum := by
          conv_lhs => rw [hshape2]
          rw [List.prod_append, List.prod_singleton]
        rw [hsum_split]
        rw [div_mul_eq_mul_div, div_mul_eq_mul_div, eq_div_iff hnum_ne.2]
        ring
      · intro S hS
        have hdrop : (dbn_step c junk st' a).sums.dropLast = st'.sums := by
          rw [hsums1, List.dropLast_concat]
        rw [hdrop] at hS
        conv at hS => rw [hshape2]
        rcases List.mem_append.mp hS with h | h
        · exact ihz S h
        · rcases List.mem_singleton.mp h with rfl
          exact hnum_ne.2


/-! ## Structural lemmas about the windowed decoder -/

lemma getD_nonneg (l : List ℚ) (h : ∀ x ∈ l, 0 ≤ x) (i : ℕ) : 0 ≤ l.getD i 0 := by
  by_cases hi : i < l.length
  · rw [List.getD_eq_getElem?_getD, List.getElem?_eq_getElem hi]
    exact h _ (List.getElem_mem hi)
  · rw [List.getD_eq_getElem?_getD, List.getElem?_eq_none (le_of_not_lt hi)]
    exact le_rfl

lemma crf_run_succ (transition norm_factor activations : List ℚ)
    (junk : ℕ → ℕ → ℕ) (init : CRFState) (k : ℕ) :
    crf_run transition norm_factor activations junk init (k + 1) =
      crf_step transition norm_factor activations (junk k)
        (crf_run transition norm_factor activations junk init k) := by
  simp [crf_run, List.range_succ, List.foldl_append]

lemma crf_cands_prev_le (transition norm_factor activations : List ℚ) (i : ℕ) :
    ∀ d ∈ crf_cands transition norm_factor activations i, d.prev ≤ i := by
  intro d hd
  simp only [crf_cands, List.mem_map, List.mem_range] at hd
  obtain ⟨j, _, rfl⟩ := hd
  exact Nat.sub_le _ _

lemma crf_cands_w (transition norm_factor activations : List ℚ) (i : ℕ) :
    ∀ d ∈ crf_cands transition norm_factor activations i,
      d.w = crf_step_term transition norm_factor activations d.prev i := by
  intro d hd
  simp only [crf_cands, List.mem_map, List.mem_range] at hd
  obtain ⟨j, hj, rfl⟩ := hd
  have hji : j ≤ i := by
    have := lt_of_lt_of_le hj (min_le_right _ _)
    omega
  simp only [crf_step_term]
  rw [Nat.sub_sub_self hji]

lemma crf_backtrack_nil (s : ℕ) : crf_backtrack [] s = [s] := rfl

lemma crf_backtrack_snoc (bps : List (List ℕ)) (row : List ℕ) (s : ℕ) :
    crf_backtrack (bps ++ [row]) s = crf_backtrack bps (row.getD s 0) ++ [s] := by
  simp [crf_backtrack, backtrack_steps]

lemma backtrack_steps_length (rows : List (List ℕ)) :
    ∀ s, (backtrack_steps rows s).length = rows.length + 1 := by
  induction rows with
  | nil => intro s; rfl
  | cons row rest ih => intro s; simp [backtrack_steps, ih]

lemma crf_backtrack_length (bps : List (List ℕ)) (s : ℕ) :
    (crf_backtrack bps s).length = bps.length + 1 := by
  simp [crf_backtrack, backtrack_steps_length]

lemma crf_path_steps_snoc (transition norm_factor activations : List ℚ) (s' : ℕ) :
    ∀ (path : List ℕ) (sp0 : ℕ),
      crf_path_steps transition norm_factor activations sp0 (path ++ [s']) =
        crf_path_steps transition norm_factor activations sp0 path *
          crf_step_term transition norm_factor activations (path.getLastD sp0) s' := by
  intro path
  induction path with
  | nil => intro sp0; simp [crf_path_steps]
  | cons s0 path' ih =>
    intro sp0
    simp only [List.cons_append, crf_path_steps, List.append_eq]
    rw [ih s0, List.getLastD_cons, mul_assoc]

lemma crf_path_product_snoc (pi transition norm_factor activations : List ℚ)
    (path : List ℕ) (s' : ℕ) (hne : path ≠ []) :
    crf_path_product pi transition norm_factor activations (path ++ [s']) =
      crf_path_product pi transition norm_factor activations path *
        crf_step_term transition norm_factor activations (path.getLastD 0) s' := by
  cases path with
  | nil => exact absurd rfl hne
  | cons s0 path' =>
    simp only [List.cons_append, crf_path_product, List.append_eq]
    rw [crf_path_steps_snoc, List.getLastD_cons]
    ring

lemma crf_run_shape (transition norm_factor activations : List ℚ)
    (junk : ℕ → ℕ → ℕ) (pi : List ℚ) (k : ℕ) :
    (crf_run transition norm_factor activations junk (crf_init pi activations) k).v_p =
      (crf_run transition norm_factor activations junk (crf_init pi activations) k).v_c.map
        (· / (crf_run transition norm_factor activations junk
          (crf_init pi activations) k).v_c.sum) ∧
    ((crf_init pi activations).v_c.sum ::
        (crf_run transition norm_factor activations junk (crf_init pi activations) k).sums) =
      ((crf_init pi activations).v_c.sum ::
        (crf_run transition norm_factor activations junk
          (crf_init pi activations) k).sums).dropLast ++
        [(crf_run transition norm_factor activations junk
          (crf_init pi activations) k).v_c.sum] := by
  cases k with
  | zero =>
    constructor
    · rfl
    · rfl
  | succ k =>
    rw [crf_run_succ]
    constructor
    · rfl
    · simp only [crf_step]
      rw [← List.cons_append, List.dropLast_concat]

lemma crf_master (pi transition norm_factor activations : List ℚ)
    (junk : ℕ → ℕ → ℕ) :
    ∀ k : ℕ, ∀ s, s < activations.length →
      (crf_run transition norm_factor activations junk
        (crf_init pi activations) k).v_c.getD s 0 ≠ 0 →
      (crf_backtrack (crf_run transition norm_factor activations junk
          (crf_init pi activations) k).bps s).length = k + 1 ∧
      crf_backtrack (crf_run transition norm_factor activations junk
        (crf_init pi activations) k).bps s ≠ [] ∧
      (crf_backtrack (crf_run transition norm_factor activations junk
        (crf_init pi activations) k).bps s).getLastD 0 = s ∧
      (∀ x ∈ crf_backtrack (crf_run transition norm_factor activations junk
        (crf_init pi activations) k).bps s, x < activations.length) ∧
      crf_path_product pi transition norm_factor activations
          (crf_backtrack (crf_run transition norm_factor activations junk
            (crf_init pi activations) k).bps s) =
        (crf_run transition norm_factor activations junk
          (crf_init pi activations) k).v_c.getD s 0 *
          (((crf_init pi activations).v_c.sum ::
            (crf_run transition norm_factor activations junk
              (crf_init pi activations) k).sums).dropLast).prod ∧
      (∀ S ∈ ((crf_init pi activations).v_c.sum ::
          (crf_run transition norm_factor activations junk
            (crf_init pi activations) k).sums).dropLast, S ≠ 0) := by
  intro k
  induction k with
  | zero =>
    intro s hs hcur
    have hbps : (crf_run transition norm_factor activations junk
        (crf_init pi activations) 0).bps = [] := rfl
    have hvc : (crf_run transition norm_factor activations junk
        (crf_init pi activations) 0).v_c =
        (List.range activations.length).map fun i =>
          pi.getD i 0 * activations.getD i 0 := rfl
    rw [hbps, crf_backtrack_nil]
    refine ⟨rfl, by simp, rfl, ?_, ?_, ?_⟩
    · intro x hx
      rcases List.mem_singleton.mp hx with rfl
      exact hs
    · have : (crf_run transition norm_factor activations junk
          (crf_init pi activations) 0).v_c.getD s 0 =
          pi.getD s 0 * activations.getD s 0 := by
        rw [hvc]; exact range_map_getD _ _ s hs
      have hsums0 : (crf_run transition norm_factor activations junk
          (crf_init pi activations) 0).sums = [] := rfl
      rw [this, hsums0]
      simp [crf_path_product, crf_path_steps]
    · intro S hS
      have hsums0 : (crf_run transition norm_factor activations junk
          (crf_init pi activations) 0).sums = [] := rfl
      rw [hsums0] at hS
      cases hS
  | succ k ih =>
    intro s hs hcur
    rw [crf_run_succ] at hcur ⊢
    set stk := crf_run transition norm_factor activations junk
      (crf_init pi activations) k with hstk
    set vp := fun i => stk.v_p.getD i 0 with hvpdef
    have hcur1 : (crf_step transition norm_factor activations (junk k) stk).v_c =
        (List.range activations.length).map (fun q =>
          (updateCell vp (crf_cands transition norm_factor activations q)
            (0, junk k q)).1) := rfl
    have hrow1 : (crf_step transition norm_factor activations (junk k) stk).bps =
        stk.bps ++ [(List.range activations.length).map (fun q =>
          (updateCell vp (crf_cands transition norm_factor activations q)
            (0, junk k q)).2)] := rfl
    have hsums1 : (crf_step transition norm_factor activations (junk k) stk).sums =
        stk.sums ++
          [(crf_step transition norm_factor activations (junk k) stk).v_c.sum] := rfl
    have hval : (crf_step transition norm_factor activations (junk k) stk).v_c.getD s 0 =
        (updateCell vp (crf_cands transition norm_factor activations s) (0, junk k s)).1 := by
      rw [hcur1]; exact range_map_getD _ _ s hs
    rw [hval] at hcur
    have hge0 : (0 : ℚ) ≤ (updateCell vp (crf_cands transition norm_factor activations s)
        (0, junk k s)).1 := updateCell_le_fst vp _ _
    have hlt0 : (0 : ℚ) < (updateCell vp (crf_cands transition norm_factor activations s)
        (0, junk k s)).1 := lt_of_le_of_ne hge0 (Ne.symm hcur)
    obtain ⟨d, hd, hv, hpr⟩ :=
      updateCell_exists_of_lt vp (crf_cands transition norm_factor activations s)
        (0, junk k s) hlt0
    have hdp : d.prev < activations.length :=
      lt_of_le_of_lt (crf_cands_prev_le transition norm_factor activations s d hd) hs
    have hrowval : ((List.range activations.length).map (fun q =>
        (updateCell vp (crf_cands transition norm_factor activations q)
          (0, junk k q)).2)).getD s 0 = d.prev := by
      rw [range_map_getD_nat _ _ s hs, hpr]
    have hstep : crf_backtrack (crf_step transition norm_factor activations
        (junk k) stk).bps s = crf_backtrack stk.bps d.prev ++ [s] := by
      rw [hrow1, crf_backtrack_snoc, hrowval]
    obtain ⟨hshape1, hshape2⟩ :=
      crf_run_shape transition norm_factor activations junk pi k
    rw [← hstk] at hshape1 hshape2
    have hvpd : vp d.prev = stk.v_c.getD d.prev 0 / stk.v_c.sum := by
      rw [hvpdef]
      simp only
      rw [hshape1]
      exact getD_map_div _ _ _
    have hscorene : vp d.prev * d.w ≠ 0 := by
      rw [← candScore, ← hv]
      exact hcur
    have hvpne : vp d.prev ≠ 0 := fun h => hscorene (by rw [h, zero_mul])
    have hnum_ne : stk.v_c.getD d.prev 0 ≠ 0 ∧ stk.v_c.sum ≠ 0 := by
      rw [hvpd] at hvpne
      exact div_ne_zero_iff.mp hvpne
    obtain ⟨ihlen, ihne, ihlast, ihmem, ihprod, ihz⟩ := ih d.prev hdp hnum_ne.1
    rw [hstep]
    refine ⟨?_, ?_, ?_, ?_, ?_, ?_⟩
    · rw [List.length_append, ihlen]
      simp
    · simp
    · rw [List.getLastD_eq_getLast?, List.getLast?_concat]
      rfl
    · intro x hx
      rcases List.mem_append.mp hx with h | h
      · exact ihmem x h
      · rcases List.mem_singleton.mp h with rfl
        exact hs
    · rw [crf_path_product_snoc pi transition norm_factor activations _ s ihne]
      rw [ihlast, ihprod]
      have hterm : crf_step_term transition norm_factor activations d.prev s = d.w :=
        (crf_cands_w transition norm_factor activations s d hd).symm
      rw [hterm, hval, hv, candScore, hvpd]
      have hdrop : ((crf_init pi activations).v_c.sum ::
          (crf_step transition norm_factor activations (junk k) stk).sums).dropLast =
          (crf_init pi activations).v_c.sum :: stk.sums := by
        rw [hsums1, ← List.cons_append, List.dropLast_concat]
      rw [hdrop]
      have hsum_split : ((crf_init pi activations).v_c.sum :: stk.sums).prod =
          (((crf_init pi activations).v_c.sum :: stk.sums).dropLast).prod * stk.v_c.sum := by
        conv_lhs => rw [hshape2]
        rw [List.prod_append, List.prod_singleton]
      rw [hsum_split]
      rw [div_mul_eq_mul_div, div_mul_eq_mul_div, eq_div_iff hnum_ne.2]
      ring
    · intro S hS
      have hdrop : ((crf_init pi activations).v_c.sum ::
          (crf_step transition norm_factor activations (junk k) stk).sums).dropLast =
          (crf_init pi activations).v_c.sum :: stk.sums := by
        rw [hsums1, ← List.cons_append, List.dropLast_concat]
      rw [hdrop] at hS
      conv at hS => rw [hshape2]
      rcases List.mem_append.mp hS with h | h
      · exact ihz S h
      · rcases List.mem_singleton.mp h with rfl
        exact hnum_ne.2

/-! ## Final-state selection and positivity lemmas -/

lemma crf_final_fold (v : List ℚ) :
    ∀ (l : List ℕ) (acc : ℕ × ℚ),
      (l.foldl (fun acc i => if acc.2 < v.getD i 0 then (i, v.getD i 0) else acc) acc).2 =
        (l.map (fun i => v.getD i 0)).foldl max acc.2 ∧
      ((l.foldl (fun acc i => if acc.2 < v.getD i 0 then (i, v.getD i 0) else acc) acc).2 = acc.2 →
        l.foldl (fun acc i => if acc.2 < v.getD i 0 then (i, v.getD i 0) else acc) acc = acc) ∧
      (acc.2 < (l.foldl (fun acc i => if acc.2 < v.getD i 0 then (i, v.getD i 0) else acc) acc).2 →
        ∃ i ∈ l, l.foldl (fun acc i => if acc.2 < v.getD i 0 then (i, v.getD i 0) else acc) acc =
          (i, v.getD i 0)) := by
  intro l
  induction l with
  | nil =>
    intro acc
    refine ⟨rfl, fun _ => rfl, fun h => absurd h (lt_irrefl _)⟩
  | cons i l ih =>
    intro acc
    simp only [List.foldl_cons, List.map_cons]
    by_cases h : acc.2 < v.getD i 0
    · rw [if_pos h]
      obtain ⟨ih1, ih2, ih3⟩ := ih (i, v.getD i 0)
      have hmax : max acc.2 (v.getD i 0) = v.getD i 0 := max_eq_right (le_of_lt h)
      refine ⟨by rw [ih1, hmax], ?_, ?_⟩
      · intro he
        exfalso
        have : v.getD i 0 ≤ (l.foldl (fun acc i =>
            if acc.2 < v.getD i 0 then (i, v.getD i 0) else acc) (i, v.getD i 0)).2 := by
          rw [ih1]; exact le_foldl_max _ _
        rw [he] at this
        exact absurd (lt_of_lt_of_le h this) (lt_irrefl _)
      · intro _
        by_cases h2 : v.getD i 0 < (l.foldl (fun acc i =>
            if acc.2 < v.getD i 0 then (i, v.getD i 0) else acc) (i, v.getD i 0)).2
        · obtain ⟨i', hi', he⟩ := ih3 h2
          exact ⟨i', List.mem_cons_of_mem _ hi', he⟩
        · have he : (l.foldl (fun acc i =>
              if acc.2 < v.getD i 0 then (i, v.getD i 0) else acc) (i, v.getD i 0)).2 =
              v.getD i 0 := by
            refine le_antisymm (le_of_not_lt h2) ?_
            rw [ih1]; exact le_foldl_max _ _
          exact ⟨i, List.mem_cons_self _ _, ih2 he⟩
    · rw [if_neg h]
      obtain ⟨ih1, ih2, ih3⟩ := ih acc
      have hmax : max acc.2 (v.getD i 0) = acc.2 := max_eq_left (le_of_not_lt h)
      refine ⟨by rw [ih1, hmax], ih2, ?_⟩
      · intro hlt
        obtain ⟨i', hi', he⟩ := ih3 hlt
        exact ⟨i', List.mem_cons_of_mem _ hi', he⟩

lemma foldl_max_from_zero (v : List ℚ) (hnn : ∀ x ∈ v, 0 ≤ x) (hne : v ≠ []) :
    v.foldl max 0 = listMaxQ v := by
  cases v with
  | nil => exact absurd rfl hne
  | cons x xs =>
    rw [List.foldl_cons, max_eq_right (hnn x (List.mem_cons_self _ _)), listMaxQ]

lemma crfFinal_spec (v : List ℚ) (j : ℕ) (hnn : ∀ x ∈ v, 0 ≤ x)
    (hex : ∃ x ∈ v, 0 < x) :
    v.getD (crfFinal v j).1 0 = (crfFinal v j).2 ∧
      (crfFinal v j).2 = listMaxQ v ∧ (crfFinal v j).1 < v.length := by
  obtain ⟨x, hxv, hx⟩ := hex
  have hvne : v ≠ [] := by
    intro h; rw [h] at hxv; cases hxv
  obtain ⟨h1, _, h3⟩ := crf_final_fold v (List.range v.length) (j, 0)
  have hmax : ((List.range v.length).map (fun i => v.getD i 0)).foldl max 0 = listMaxQ v := by
    rw [range_getD_self, foldl_max_from_zero v hnn hvne]
  have hmaxpos : 0 < listMaxQ v := lt_of_lt_of_le hx (listMaxQ_mem_le v x hxv)
  have hv2 : (crfFinal v j).2 = listMaxQ v := by
    rw [crfFinal, h1, hmax]
  have hlt : ((j, (0 : ℚ)) : ℕ × ℚ).2 < (crfFinal v j).2 := by
    rw [hv2]; exact hmaxpos
  obtain ⟨i, hi, he⟩ := h3 hlt
  rw [crfFinal] at hv2 ⊢
  rw [he]
  refine ⟨rfl, hv2.symm ▸ (by rw [he]), ?_⟩
  exact List.mem_range.mp hi

lemma crf_run_vc_nonneg (pi transition norm_factor activations : List ℚ)
    (junk : ℕ → ℕ → ℕ) (hpi : ∀ x ∈ pi, 0 ≤ x) (hact : ∀ x ∈ activations, 0 ≤ x) :
    ∀ k, ∀ x ∈ (crf_run transition norm_factor activations junk
      (crf_init pi activations) k).v_c, 0 ≤ x := by
  intro k
  cases k with
  | zero =>
    intro x hx
    have : (crf_run transition norm_factor activations junk
        (crf_init pi activations) 0).v_c =
        (List.range activations.length).map fun i =>
          pi.getD i 0 * activations.getD i 0 := rfl
    rw [this] at hx
    simp only [List.mem_map, List.mem_range] at hx
    obtain ⟨i, _, rfl⟩ := hx
    exact mul_nonneg (getD_nonneg pi hpi i) (getD_nonneg activations hact i)
  | succ k =>
    intro x hx
    rw [crf_run_succ] at hx
    simp only [crf_step, List.mem_map, List.mem_range] at hx
    obtain ⟨i, _, rfl⟩ := hx
    exact updateCell_le_fst _ _ _

lemma crf_run_sums_nonneg (pi transition norm_factor activations : List ℚ)
    (junk : ℕ → ℕ → ℕ) :
    ∀ k, ∀ S ∈ (crf_run transition norm_factor activations junk
      (crf_init pi activations) k).sums, 0 ≤ S := by
  intro k
  induction k with
  | zero => intro S hS; cases hS
  | succ k ih =>
    intro S hS
    rw [crf_run_succ] at hS
    simp only [crf_step] at hS
    rcases List.mem_append.mp hS with h | h
    · exact ih S h
    · rcases List.mem_singleton.mp h with rfl
      apply List.sum_nonneg
      intro x hx
      simp only [List.mem_map, List.mem_range] at hx
      obtain ⟨i, _, rfl⟩ := hx
      exact updateCell_le_fst _ _ _

lemma dbn_run_current_nonneg (c : DBNConfig) (junk : ℕ → ℕ → ℕ) (junk0 : List ℚ)
    (acts : List ℚ) (hne : acts ≠ []) :
    ∀ x ∈ (dbn_run c junk junk0 acts).current_viterbi, 0 ≤ x := by
  induction acts using List.reverseRecOn with
  | nil => exact absurd rfl hne
  | append_singleton as a _ =>
    rw [dbn_run_snoc]
    exact dbn_step_current_nonneg c junk _ a

lemma dbn_run_current_length (c : DBNConfig) (junk : ℕ → ℕ → ℕ) (junk0 : List ℚ)
    (acts : List ℚ) (hne : acts ≠ []) :
    (dbn_run c junk junk0 acts).current_viterbi.length = c.num_states := by
  induction acts using List.reverseRecOn with
  | nil => exact absurd rfl hne
  | append_singleton as a _ =>
    rw [dbn_run_snoc]
    simp [dbn_step]

lemma log_list_prod (l : List ℚ) (h : ∀ x ∈ l, 0 < x) :
    Real.log ((l.prod : ℚ) : ℝ) = (l.map fun q => Real.log ((q : ℚ) : ℝ)).sum := by
  induction l with
  | nil => simp
  | cons x xs ih =>
    have hx : (0 : ℚ) < x := h x (List.mem_cons_self _ _)
    have hxs : ∀ y ∈ xs, (0 : ℚ) < y := fun y hy => h y (List.mem_cons_of_mem _ hy)
    have hprod : (0 : ℚ) < xs.prod := List.prod_pos hxs
    rw [List.prod_cons, List.map_cons, List.sum_cons, Rat.cast_mul,
      Real.log_mul (by exact_mod_cast ne_of_gt hx) (by exact_mod_cast ne_of_gt hprod),
      ih hxs]

/-! ## Beat-extraction lemmas -/

lemma boundsAux_change_points :
    ∀ (rest : List Bool) (i : ℕ) (x : Bool),
      boundsAux (i + 1) x rest = change_points_from i (x :: rest) ++
        (if lastD (x :: rest) then [i + 1 + rest.length] else []) := by
  intro rest
  induction rest with
  | nil =>
    intro i x
    simp [boundsAux, change_points_from, lastD]
  | cons y rest ih =>
    intro i x
    have hlast : lastD (x :: y :: rest) = lastD (y :: rest) := by
      simp only [lastD, List.length_cons, Nat.add_sub_cancel]
      rw [List.getD_cons_succ]
    calc boundsAux (i + 1) x (y :: rest)
        = (if x = y then [] else [i + 1]) ++ boundsAux (i + 2) y rest := rfl
      _ = (if x = y then [] else [i + 1]) ++
            (change_points_from (i + 1) (y :: rest) ++
              (if lastD (y :: rest) then [i + 2 + rest.length] else [])) := by
          rw [ih (i + 1) y]
      _ = change_points_from i (x :: y :: rest) ++
            (if lastD (x :: y :: rest) then [i + 1 + (y :: rest).length] else []) := by
          rw [hlast]
          simp only [change_points_from, List.length_cons, List.append_assoc]
          have : i + 2 + rest.length = i + 1 + (rest.length + 1) := by omega
          rw [this]

lemma region_bounds_eq_boundsAux (b : List Bool) (hne : b ≠ []) :
    region_bounds b = boundsAux 0 false b := by
  cases b with
  | nil => exact absurd rfl hne
  | cons x rest =>
    rw [region_bounds]
    have h1 : boundsAux 0 false (x :: rest) =
        (if false = x then [] else [0]) ++ boundsAux 1 x rest := rfl
    rw [h1, boundsAux_change_points rest 0 x]
    have h2 : (if false = x then ([] : List ℕ) else [0]) = if x then [0] else [] := by
      cases x <;> rfl
    have h3 : (x :: rest).getD 0 false = x := rfl
    have h4 : (0 : ℕ) + 1 + rest.length = (x :: rest).length := by
      simp [List.length_cons]; omega
    rw [h2, h3, h4, List.append_assoc]

lemma runsAux_flat :
    ∀ (b : List Bool) (i : ℕ),
      flattenPairs (runsAux b i none) = boundsAux i false b ∧
      (∀ l, flattenPairs (runsAux b i (some l)) = l :: boundsAux i true b) := by
  intro b
  induction b with
  | nil =>
    intro i
    constructor
    · rfl
    · intro l; rfl
  | cons x rest ih =>
    intro i
    cases x with
    | true =>
      constructor
      · have h1 : runsAux (true :: rest) i none = runsAux rest (i + 1) (some i) := rfl
        rw [h1, (ih (i + 1)).2 i]
        rfl
      · intro l
        have h1 : runsAux (true :: rest) i (some l) = runsAux rest (i + 1) (some l) := rfl
        rw [h1, (ih (i + 1)).2 l]
        rfl
    | false =>
      constructor
      · have h1 : runsAux (false :: rest) i none = runsAux rest (i + 1) none := rfl
        rw [h1, (ih (i + 1)).1]
        rfl
      · intro l
        have h1 : runsAux (false :: rest) i (some l) =
            (l, i) :: runsAux rest (i + 1) none := rfl
        rw [h1, flattenPairs, (ih (i + 1)).1]
        rfl

lemma pairup_flattenPairs : ∀ rs : List (ℕ × ℕ), pairup (flattenPairs rs) = rs := by
  intro rs
  induction rs with
  | nil => rfl
  | cons p rest ih =>
    obtain ⟨l, r⟩ := p
    simp only [flattenPairs, pairup, ih]

lemma pairup_region_bounds (b : List Bool) (hne : b ≠ []) :
    pairup (region_bounds b) = maximal_runs b := by
  rw [region_bounds_eq_boundsAux b hne, maximal_runs, ← (runsAux_flat b 0).1,
    pairup_flattenPairs]

lemma runsAux_bounds :
    ∀ (b : List Bool) (i : ℕ),
      (∀ p ∈ runsAux b i none, p.1 < p.2 ∧ p.2 ≤ i + b.length) ∧
      (∀ l, l < i → ∀ p ∈ runsAux b i (some l), p.1 < p.2 ∧ p.2 ≤ i + b.length) := by
  intro b
  induction b with
  | nil =>
    intro i
    constructor
    · intro p hp; cases hp
    · intro l hl p hp
      rcases List.mem_singleton.mp hp with rfl
      exact ⟨hl, by simp⟩
  | cons x rest ih =>
    intro i
    cases x with
    | true =>
      constructor
      · intro p hp
        have h1 : runsAux (true :: rest) i none = runsAux rest (i + 1) (some i) := rfl
        rw [h1] at hp
        have := (ih (i + 1)).2 i (Nat.lt_succ_self i) p hp
        refine ⟨this.1, le_trans this.2 ?_⟩
        simp [List.length_cons]; omega
      · intro l hl p hp
        have h1 : runsAux (true :: rest) i (some l) = runsAux rest (i + 1) (some l) := rfl
        rw [h1] at hp
        have := (ih (i + 1)).2 l (lt_trans hl (Nat.lt_succ_self i)) p hp
        refine ⟨this.1, le_trans this.2 ?_⟩
        simp [List.length_cons]; omega
    | false =>
      constructor
      · intro p hp
        have h1 : runsAux (false :: rest) i none = runsAux rest (i + 1) none := rfl
        rw [h1] at hp
        have := (ih (i + 1)).1 p hp
        refine ⟨this.1, le_trans this.2 ?_⟩
        simp [List.length_cons]; omega
      · intro l hl p hp
        have h1 : runsAux (false :: rest) i (some l) =
            (l, i) :: runsAux rest (i + 1) none := rfl
        rw [h1] at hp
        rcases List.mem_cons.mp hp with rfl | hp'
        · exact ⟨hl, by simp⟩
        · have := (ih (i + 1)).1 p hp'
          refine ⟨this.1, le_trans this.2 ?_⟩
          simp [List.length_cons]; omega

lemma maximal_runs_bounds (b : List Bool) :
    ∀ p ∈ maximal_runs b, p.1 < p.2 ∧ p.2 ≤ b.length := by
  intro p hp
  have := (runsAux_bounds b 0).1 p hp
  simpa using this

lemma listArgmax_le (v : List ℚ) (k : ℕ) (hk : k < v.length) :
    v.getD k 0 ≤ v.getD (listArgmax v) 0 := by
  have hvne : v ≠ [] := by
    intro h; rw [h] at hk; cases hk
  obtain ⟨h1, _⟩ := listArgmax_spec v hvne
  rw [h1]
  apply listMaxQ_mem_le
  rw [List.getD_eq_getElem?_getD, List.getElem?_eq_getElem hk]
  exact List.getElem_mem hk

lemma slice_length (obs : List ℚ) (l r : ℕ) (hlr : l ≤ r) (hr : r ≤ obs.length) :
    ((obs.drop l).take (r - l)).length = r - l := by
  rw [List.length_take, List.length_drop]
  omega

lemma slice_getD (obs : List ℚ) (l r k : ℕ) (hk : k < r - l) (hr : r ≤ obs.length) :
    ((obs.drop l).take (r - l)).getD k 0 = obs.getD (l + k) 0 := by
  rw [List.getD_eq_getElem?_getD, List.getElem?_take_of_lt hk, List.getElem?_drop,
    List.getD_eq_getElem?_getD]

lemma slice_argmax_mem (obs : List ℚ) (l r : ℕ) (hlr : l < r) (hr : r ≤ obs.length) :
    l ≤ slice_argmax obs l r ∧ slice_argmax obs l r < r := by
  have hlen : ((obs.drop l).take (r - l)).length = r - l :=
    slice_length obs l r (le_of_lt hlr) hr
  have hne : (obs.drop l).take (r - l) ≠ [] := by
    intro h
    rw [h] at hlen
    simp at hlen
    omega
  obtain ⟨_, h2⟩ := listArgmax_spec _ hne
  rw [hlen] at h2
  constructor
  · exact Nat.le_add_left l _
  · rw [slice_argmax]
    omega

lemma slice_argmax_is_max (obs : List ℚ) (l r : ℕ) (hlr : l < r) (hr : r ≤ obs.length) :
    ∀ i, l ≤ i → i < r → obs.getD i 0 ≤ obs.getD (slice_argmax obs l r) 0 := by
  intro i hli hir
  have hlen : ((obs.drop l).take (r - l)).length = r - l :=
    slice_length obs l r (le_of_lt hlr) hr
  have hne : (obs.drop l).take (r - l) ≠ [] := by
    intro h
    rw [h] at hlen
    simp at hlen
    omega
  obtain ⟨hval, hidx⟩ := listArgmax_spec _ hne
  have hik : i - l < r - l := by omega
  have h1 : obs.getD i 0 = ((obs.drop l).take (r - l)).getD (i - l) 0 := by
    rw [slice_getD obs l r (i - l) hik hr]
    congr 1
    omega
  have h2 : obs.getD (slice_argmax obs l r) 0 =
      ((obs.drop l).take (r - l)).getD (listArgmax ((obs.drop l).take (r - l))) 0 := by
    rw [slice_argmax, Nat.add_comm]
    rw [slice_getD obs l r _ (lt_of_lt_of_le hidx (le_of_eq hlen)) hr]
  rw [h1, h2, hval]
  apply listMaxQ_mem_le
  have hik2 : i - l < ((obs.drop l).take (r - l)).length := by rw [hlen]; exact hik
  rw [List.getD_eq_getElem?_getD, List.getElem?_eq_getElem hik2]
  exact List.getElem_mem hik2

/-! ## C unsigned arithmetic versus the claimed modulo formulas -/

lemma u32_small (x : ℤ) (h0 : 0 ≤ x) (h1 : x < 4294967296) : (u32 x : ℤ) = x := by
  rw [u32, Int.emod_eq_of_lt h0 h1, Int.toNat_of_nonneg h0]

lemma u32_phase_eq (b nbs : ℕ) (off : ℤ) (hb : b < nbs) (hnbs : nbs ≤ 2 ^ 30)
    (hoff0 : off ≤ nbs) (hoffl : -1 ≤ off) :
    u32 ((b : ℤ) + (nbs : ℤ) - off) % nbs =
      ((((b : ℤ) - off + (nbs : ℤ)) % (nbs : ℤ)).toNat) := by
  have hnbs0 : 0 < nbs := lt_of_le_of_lt (Nat.zero_le b) hb
  have hnbsz : ((nbs : ℤ)) ≠ 0 := by exact_mod_cast ne_of_gt hnbs0
  have hx0 : 0 ≤ (b : ℤ) + (nbs : ℤ) - off := by
    have : (0 : ℤ) ≤ b := Int.ofNat_nonneg b
    omega
  have hx1 : (b : ℤ) + (nbs : ℤ) - off < 4294967296 := by
    have hb' : (b : ℤ) < nbs := by exact_mod_cast hb
    have hnbs' : (nbs : ℤ) ≤ 2 ^ 30 := by exact_mod_cast hnbs
    omega
  have hu : (u32 ((b : ℤ) + (nbs : ℤ) - off) : ℤ) = (b : ℤ) + (nbs : ℤ) - off :=
    u32_small _ hx0 hx1
  have hcast : ((u32 ((b : ℤ) + (nbs : ℤ) - off) % nbs : ℕ) : ℤ) =
      (((((b : ℤ) - off + (nbs : ℤ)) % (nbs : ℤ)).toNat : ℕ) : ℤ) := by
    push_cast
    rw [hu, Int.toNat_of_nonneg (Int.emod_nonneg _ hnbsz)]
    congr 1
    ring
  exact_mod_cast hcast

/-! ## Row-0 independence of the composite back-tracking -/

lemma brts_append_last (l : List (List ℕ)) (r r' : List ℕ) :
    ∀ s, backtrack_read_then_step (l ++ [r]) s = backtrack_read_then_step (l ++ [r']) s := by
  induction l with
  | nil =>
    intro s
    rfl
  | cons x l ih =>
    intro s
    simp only [List.cons_append, backtrack_read_then_step, List.append_eq]
    rw [ih]

lemma dbn_backtrack_head_irrelevant (row row' : List ℕ) (rows : List (List ℕ)) (s : ℕ) :
    dbn_backtrack (row :: rows) s = dbn_backtrack (row' :: rows) s := by
  simp only [dbn_backtrack, List.reverse_cons]
  rw [brts_append_last rows.reverse row row' s]

lemma mm_backtrack_head_irrelevant (row row' : List ℕ) (rows : List (List ℕ)) (s : ℕ) :
    mm_backtrack (row :: rows) s = mm_backtrack (row' :: rows) s := by
  simp only [mm_backtrack, List.reverse_cons, List.dropLast_concat]

/-! ## Range-only master lemma for the composite decoder -/

lemma dbn_range_master (c : DBNConfig) (junk : ℕ → ℕ → ℕ) (junk0 : List ℚ)
    (hn : 0 < c.num_beat_states) :
    ∀ acts : List ℚ, acts ≠ [] → ∀ s, s < c.num_states →
      (dbn_run c junk junk0 acts).current_viterbi.getD s 0 ≠ 0 →
      ∀ x ∈ dbn_backtrack (dbn_run c junk junk0 acts).bps s, x < c.num_states := by
  intro acts
  induction acts using List.reverseRecOn with
  | nil => intro h; exact absurd rfl h
  | append_singleton as a ih =>
    intro _ s hs hcur
    rw [dbn_run_snoc] at hcur ⊢
    set st' := dbn_run c junk junk0 as with hst'
    set vp := fun i => st'.prev_viterbi.getD i 0 with hvpdef
    have hcur1 : (dbn_step c junk st' a).current_viterbi =
        (List.range c.num_states).map (fun q =>
          (updateCell vp (dbn_cands c a q) (0, junk st'.bps.length q)).1) := rfl
    have hrow1 : (dbn_step c junk st' a).bps = st'.bps ++
        [(List.range c.num_states).map (fun q =>
          (updateCell vp (dbn_cands c a q) (0, junk st'.bps.length q)).2)] := rfl
    have hval : (dbn_step c junk st' a).current_viterbi.getD s 0 =
        (updateCell vp (dbn_cands c a s) (0, junk st'.bps.length s)).1 := by
      rw [hcur1]; exact range_map_getD _ _ s hs
    rw [hval] at hcur
    have hlt0 : (0 : ℚ) < (updateCell vp (dbn_cands c a s) (0, junk st'.bps.length s)).1 :=
      lt_of_le_of_ne (updateCell_le_fst vp _ _) (Ne.symm hcur)
    obtain ⟨d, hd, hv, hpr⟩ :=
      updateCell_exists_of_lt vp (dbn_cands c a s) (0, junk st'.bps.length s) hlt0
    have hdp : d.prev < c.num_states := dbn_cands_prev_lt c a s hn hs d hd
    have hrowval : ((List.range c.num_states).map (fun q =>
        (updateCell vp (dbn_cands c a q) (0, junk st'.bps.length q)).2)).getD s 0 = d.prev := by
      rw [range_map_getD_nat _ _ s hs, hpr]
    have hstep : dbn_backtrack ((dbn_step c junk st' a).bps) s =
        dbn_backtrack st'.bps d.prev ++ [s] := by
      rw [hrow1, dbn_backtrack_snoc, hrowval]
    rw [hstep]
    rcases eq_or_ne as [] with rfl | hne'
    · intro x hx
      have hbt : dbn_backtrack st'.bps d.prev = [] := rfl
      rw [hbt, List.nil_append] at hx
      rcases List.mem_singleton.mp hx with rfl
      exact hs
    · obtain ⟨hshape1, _⟩ := dbn_run_shape c junk junk0 as hne'
      rw [← hst'] at hshape1
      have hvpd : vp d.prev =
          st'.current_viterbi.getD d.prev 0 / st'.current_viterbi.sum := by
        rw [hvpdef]
        simp only
        rw [hshape1]
        exact getD_map_div _ _ _
      have hscorene : vp d.prev * d.w ≠ 0 := by
        rw [← candScore, ← hv]
        exact hcur
      have hvpne : vp d.prev ≠ 0 := fun h => hscorene (by rw [h, zero_mul])
      have hnum_ne : st'.current_viterbi.getD d.prev 0 ≠ 0 := by
        rw [hvpd] at hvpne
        exact (div_ne_zero_iff.mp hvpne).1
      intro x hx
      rcases List.mem_append.mp hx with h | h
      · exact ih hne' d.prev hdp hnum_ne x h
      · rcases List.mem_singleton.mp h with rfl
        exact hs

lemma crf_run_vc_length (pi transition norm_factor activations : List ℚ)
    (junk : ℕ → ℕ → ℕ) :
    ∀ k, (crf_run transition norm_factor activations junk
      (crf_init pi activations) k).v_c.length = activations.length := by
  intro k
  cases k with
  | zero => simp [crf_run, crf_init]
  | succ k =>
    rw [crf_run_succ]
    simp [crf_step]

/-! ## Claim theorems -/

/-- C3: in the per-cell candidate fold `updateCell`, shared by every
decoder variant (`crf_step`, `dbn_step`, `mm_step`), a later candidate
replaces value and pointer only on a strictly greater score; hence
whenever some candidate's score beats the reset value 0, the final value
is the maximum over the candidate scores (folded from 0), and the
recorded pointer is the predecessor of the *first* candidate in
evaluation order whose score equals that maximum — the earliest-ordered
candidate wins exact ties. -/
theorem c3_strict_improvement_tiebreak (vp : ℕ → ℚ) (cs : List Cand) (junk : ℕ)
    (h : ∃ c ∈ cs, 0 < candScore vp c) :
    (updateCell vp cs (0, junk)).1 = (cs.map (candScore vp)).foldl max 0 ∧
    ∃ c, cs.find? (fun d => decide (candScore vp d = (updateCell vp cs (0, junk)).1)) =
        some c ∧
      (updateCell vp cs (0, junk)).2 = c.prev := by
  have h1 := updateCell_fst vp cs (0, junk)
  have hlt : ((0, junk) : ℚ × ℕ).1 < (updateCell vp cs (0, junk)).1 := by
    obtain ⟨c, hc, hpos⟩ := h
    have hle : candScore vp c ≤ (updateCell vp cs (0, junk)).1 := by
      rw [h1]
      exact mem_le_foldl_max _ _ _ (List.mem_map_of_mem _ hc)
    exact lt_of_lt_of_le hpos hle
  exact ⟨h1, updateCell_find_of_lt vp cs (0, junk) hlt⟩

/-- Witness for C3 at a concrete input: scores 1, 2, 0 — the hypothesis
holds, and the recorded pointer is the first candidate attaining the
maximal score 2. -/
theorem c3_strict_improvement_tiebreak_witness :
    (∃ c ∈ [Cand.mk 1 1, Cand.mk 2 1, Cand.mk 0 5],
      0 < candScore (fun i => (i : ℚ)) c) ∧
    ((updateCell (fun i => (i : ℚ)) [Cand.mk 1 1, Cand.mk 2 1, Cand.mk 0 5] (0, 99)).1 =
      (([Cand.mk 1 1, Cand.mk 2 1, Cand.mk 0 5]).map (candScore (fun i => (i : ℚ)))).foldl
        max 0 ∧
    ∃ c, ([Cand.mk 1 1, Cand.mk 2 1, Cand.mk 0 5]).find?
        (fun d => decide (candScore (fun i => (i : ℚ)) d =
          (updateCell (fun i => (i : ℚ)) [Cand.mk 1 1, Cand.mk 2 1, Cand.mk 0 5]
            (0, 99)).1)) = some c ∧
      (updateCell (fun i => (i : ℚ)) [Cand.mk 1 1, Cand.mk 2 1, Cand.mk 0 5] (0, 99)).2 =
        c.prev) :=
  ⟨⟨Cand.mk 2 1, by norm_num, by norm_num [candScore]⟩,
   c3_strict_improvement_tiebreak (fun i => (i : ℚ))
    [Cand.mk 1 1, Cand.mk 2 1, Cand.mk 0 5] 99
    ⟨Cand.mk 2 1, by norm_num, by norm_num [candScore]⟩⟩

/-- C4 counterexample: two composite decodes over the same activations
whose recorded frame-0 pointer rows differ (5 versus 6 — both rows are
unwritten `np.empty` cells, modelled by the `junk` parameter) return the
same path, so the pointer recorded at frame 0 does not participate in
determining the returned path: the final fetch of
`back_tracking_pointers[0, state]` is discarded. -/
theorem c4_counterexample :
    (dbn_run (DBNConfig.mk 1 [1] (1/125) 2)
      (fun k _ => if k = 0 then 5 else 7) [0] [1, 1]).bps = [[5], [7]] ∧
    (dbn_run (DBNConfig.mk 1 [1] (1/125) 2)
      (fun k _ => if k = 0 then 6 else 7) [0] [1, 1]).bps = [[6], [7]] ∧
    dbn_viterbi (DBNConfig.mk 1 [1] (1/125) 2)
      (fun k _ => if k = 0 then 5 else 7) [0] [1, 1] =
      dbn_viterbi (DBNConfig.mk 1 [1] (1/125) 2)
        (fun k _ => if k = 0 then 6 else 7) [0] [1, 1] := by
  refine ⟨?_, ?_, ?_⟩ <;>
  norm_num [dbn_viterbi, dbn_run, dbn_step, dbn_cands, dbn_observation,
    DBNConfig.num_states, updateCell, candScore, u32, List.range_succ,
    dbn_backtrack, backtrack_read_then_step, listArgmax, listArgmaxAux,
    listMaxQ, Int.toNat, List.getD_eq_getElem?_getD, List.getElem?_replicate]

/-- C4 amended: the composite back-tracking loop does run from frame
`numFrames - 1` down to frame 0 inclusive with no special-case skip, but
the value fetched from the frame-0 pointer row is discarded, so the
returned path never depends on that row; `mm_viterbi` skips the frame-0
row outright (`range(1, len(bps))`).  The windowed model's table only has
rows for frames `1 .. num_x - 1` and all of them are consumed. -/
theorem c4_amended_backtrack_rows (row row' : List ℕ) (rows : List (List ℕ)) (s : ℕ) :
    dbn_backtrack (row :: rows) s = dbn_backtrack (row' :: rows) s ∧
    mm_backtrack (row :: rows) s = mm_backtrack (row' :: rows) s ∧
    (crf_backtrack rows s).length = rows.length + 1 :=
  ⟨dbn_backtrack_head_irrelevant row row' rows s,
   mm_backtrack_head_irrelevant row row' rows s,
   crf_backtrack_length rows s⟩

/-- C6: with `num_beat_states = 8`, `observation_lambda = 16` every state
is a non-beat state, and activation 1.0 gives every state emission 0, so
every score in the frame is zero and the frame's Viterbi sum is 0.  The
decode does not fail fast: it performs the normalisation division anyway
(in the C code a division by zero that floods the vector with `NaN`) and
returns a path normally. -/
theorem c6_zero_frame_no_error :
    (dbn_run (DBNConfig.mk 8 [1] (1/125) 16) (fun _ _ => 0)
      (List.replicate 8 0) [1]).sums = [0] ∧
    dbn_viterbi (DBNConfig.mk 8 [1] (1/125) 16) (fun _ _ => 0)
      (List.replicate 8 0) [1] = Except.ok [0] := by
  refine ⟨?_, ?_⟩ <;>
  norm_num [dbn_viterbi, dbn_run, dbn_step, dbn_cands, dbn_observation,
    DBNConfig.num_states, updateCell, candScore, u32, List.range_succ,
    dbn_backtrack, backtrack_read_then_step, listArgmax, listArgmaxAux,
    listMaxQ, Int.toNat, List.getD_eq_getElem?_getD, List.getElem?_replicate,
    List.replicate]

/-- C7: on an empty activation sequence the composite decoder returns the
empty path, but the returned total probability is `0.0 + log` of the
maximum of the *uninitialised* `current_viterbi` buffer (`np.empty`):
two different junk buffer contents give two different return values, so
the probability is an arbitrary default, not an error and not a
documented sentinel. -/
theorem c7_empty_input_junk_logprob :
    dbn_viterbi (DBNConfig.mk 1 [1] (1/125) 2) (fun _ _ => 0) [1] [] = Except.ok [] ∧
    dbn_viterbi (DBNConfig.mk 1 [1] (1/125) 2) (fun _ _ => 0) [2] [] = Except.ok [] ∧
    ((dbn_run (DBNConfig.mk 1 [1] (1/125) 2) (fun _ _ => 0) [1] []).sums.map
        fun q => Real.log ((q : ℚ) : ℝ)).sum +
      Real.log ((listMaxQ (dbn_run (DBNConfig.mk 1 [1] (1/125) 2)
        (fun _ _ => 0) [1] []).current_viterbi : ℚ) : ℝ) ≠
    ((dbn_run (DBNConfig.mk 1 [1] (1/125) 2) (fun _ _ => 0) [2] []).sums.map
        fun q => Real.log ((q : ℚ) : ℝ)).sum +
      Real.log ((listMaxQ (dbn_run (DBNConfig.mk 1 [1] (1/125) 2)
        (fun _ _ => 0) [2] []).current_viterbi : ℚ) : ℝ) := by
  refine ⟨rfl, rfl, ?_⟩
  have h1 : listMaxQ (dbn_run (DBNConfig.mk 1 [1] (1/125) 2)
      (fun _ _ => 0) [1] []).current_viterbi = 1 := rfl
  have h2 : listMaxQ (dbn_run (DBNConfig.mk 1 [1] (1/125) 2)
      (fun _ _ => 0) [2] []).current_viterbi = 2 := rfl
  have h3 : (dbn_run (DBNConfig.mk 1 [1] (1/125) 2)
      (fun _ _ => 0) [1] []).sums = [] := rfl
  have h4 : (dbn_run (DBNConfig.mk 1 [1] (1/125) 2)
      (fun _ _ => 0) [2] []).sums = [] := rfl
  rw [h1, h2, h3, h4]
  simp only [List.map_nil, List.sum_nil, zero_add, Rat.cast_one]
  rw [Real.log_one]
  intro h
  have h2pos : (0 : ℝ) < Real.log ((2 : ℚ) : ℝ) := by
    apply Real.log_pos
    norm_num
  rw [← h] at h2pos
  exact lt_irrefl _ h2pos

/-- C8 counterexample: a configuration with exactly 65536 states
(`num_beat_states = 65536`, one tempo state).  65536 is not more than
65536, so by the claim the decode should proceed; the code raises at any
state count strictly greater than `np.iinfo(np.uint16).max = 65535`, so
it rejects this configuration. -/
theorem c8_counterexample :
    dbn_viterbi (DBNConfig.mk 65536 [1] (1/125) 16) (fun _ _ => 0) [] [] =
      Except.error dbn_states_error ∧
    dbn_states_check_claim (DBNConfig.mk 65536 [1] (1/125) 16).num_states = false := by
  refine ⟨rfl, by decide⟩

/-- C8 amended: `viterbi` raises (an `AssertionError`, not a dedicated
`ConfigurationError` class) if and only if
`num_states = num_beat_states * len(tempo_states)` exceeds 65535, the
largest value of the 16-bit state-index type; configurations needing
exactly 65536 states are also rejected. -/
theorem c8_amended_state_count_check (c : DBNConfig) (junk : ℕ → ℕ → ℕ)
    (junk0 : List ℚ) (acts : List ℚ) :
    dbn_viterbi c junk junk0 acts = Except.error dbn_states_error ↔
      65535 < c.num_states := by
  unfold dbn_viterbi
  by_cases h : 65535 < c.num_states
  · simp [h]
  · simp [h]

/-- C10: `mm_viterbi` decodes with internal hard-coded constants (640
beat states, lambda 16, change probability 0.002, tempo indices 0..22
with slower-tempo transitions only above index 5, visible in `mm_cands`
and `mm_viterbi_core`), so its output is the same whatever values are
passed for `num_beat_cells`, `tempo_change_probability`, `beat_lambda`,
`min_bpm` and `max_bpm`. -/
theorem c10_mm_viterbi_ignores_params (acts : List ℚ) (n1 n2 : ℕ) (p1 p2 : ℚ)
    (l1 l2 m1 m2 b1 b2 : ℕ) (j : ℕ) :
    mm_viterbi acts n1 p1 l1 m1 b1 j = mm_viterbi acts n2 p2 l2 m2 b2 j ∧
    mm_viterbi acts n1 p1 l1 m1 b1 j = mm_viterbi_core acts j :=
  ⟨rfl, rfl⟩

/-- C2 counterexample: with `tempo_states = [1, 5]` (not consecutive) the
slower-tempo candidate of state 8 (beat phase 0, tempo index 1) uses
beat-phase step `tempo - 1 = 4`, predecessor phase 4, where the claim's
`tempoStates[t-1] = 1` would give predecessor phase 7 — the lists differ;
and `mm_viterbi` at state 1920 (tempo index 3) evaluates no slower-tempo
candidate although `t > 0`, because the hard-coded guard is `tempo > 5`. -/
theorem c2_counterexample :
    dbn_cands (DBNConfig.mk 8 [1, 5] (1/2) 2) 1 8 ≠
      dbn_cands_claim (DBNConfig.mk 8 [1, 5] (1/2) 2) 1 8 ∧
    mm_cands 1 1920 ≠ mm_cands_claim 1 1920 := by
  constructor
  · norm_num [dbn_cands, dbn_cands_claim, dbn_observation, u32, Int.toNat]
  · norm_num [mm_cands, mm_cands_claim]

/-- C2 amended: the candidate lists are exactly as the claim describes —
same order, same guards for the composite decoder, same weights — except
that the slower (resp. faster) candidate's beat-phase step is
`tempoStates[t] - 1` (resp. `tempoStates[t] + 1`), one less (resp. more)
than the *current tempo value*, not `tempoStates[t∓1]`; and in
`mm_viterbi` the slower-tempo candidate is evaluated iff the tempo index
exceeds the hard-coded `min_tempo = 5`, not iff it exceeds 0. -/
theorem c2_amended_candidates (c : DBNConfig) (a : ℚ) (s : ℕ)
    (hs : s < c.num_states) (hnbs : c.num_beat_states ≤ 2 ^ 30)
    (htempo : ∀ tp ∈ c.tempo_states, tp < c.num_beat_states) :
    dbn_cands c a s = dbn_cands_amended c a s ∧
    ∀ s' : ℕ, mm_cands a s' = mm_cands_amended a s' := by
  constructor
  · have hn : 0 < c.num_beat_states := by
      rcases Nat.eq_zero_or_pos c.num_beat_states with h | h
      · rw [DBNConfig.num_states, h, zero_mul] at hs
        exact absurd hs (Nat.not_lt_zero s)
      · exact h
    have ht : s / c.num_beat_states < c.tempo_states.length := by
      rw [DBNConfig.num_states] at hs
      exact Nat.div_lt_of_lt_mul hs
    have hmem : c.tempo_states.getD (s / c.num_beat_states) 0 ∈ c.tempo_states := by
      rw [List.getD_eq_getElem?_getD, List.getElem?_eq_getElem ht]
      exact List.getElem_mem ht
    have htv : c.tempo_states.getD (s / c.num_beat_states) 0 < c.num_beat_states :=
      htempo _ hmem
    have htvz : ((c.tempo_states.getD (s / c.num_beat_states) 0 : ℕ) : ℤ) ≤
        (c.num_beat_states : ℤ) := by exact_mod_cast le_of_lt htv
    have h_same := u32_phase_eq (s % c.num_beat_states) c.num_beat_states
      ((c.tempo_states.getD (s / c.num_beat_states) 0 : ℕ) : ℤ)
      (Nat.mod_lt _ hn) hnbs htvz (by omega)
    have h_slower := u32_phase_eq (s % c.num_beat_states) c.num_beat_states
      (((c.tempo_states.getD (s / c.num_beat_states) 0 : ℕ) : ℤ) - 1)
      (Nat.mod_lt _ hn) hnbs (by omega) (by omega)
    have h_faster := u32_phase_eq (s % c.num_beat_states) c.num_beat_states
      (((c.tempo_states.getD (s / c.num_beat_states) 0 : ℕ) : ℤ) + 1)
      (Nat.mod_lt _ hn) hnbs (by omega) (by omega)
    simp only [dbn_cands, dbn_cands_amended]
    rw [h_same, h_slower, h_faster]
  · intro s'
    have hmod : ∀ x : ℤ, (x + 640) % 640 = x % 640 := fun x => by omega
    simp only [mm_cands, mm_cands_amended, hmod]

/-- Witness for C2 amended at the counterexample's inputs. -/
theorem c2_amended_candidates_witness :
    dbn_cands (DBNConfig.mk 8 [1, 5] (1/2) 2) 1 8 =
      dbn_cands_amended (DBNConfig.mk 8 [1, 5] (1/2) 2) 1 8 ∧
    mm_cands 1 1920 = mm_cands_amended 1 1920 := by
  have h := c2_amended_candidates (DBNConfig.mk 8 [1, 5] (1/2) 2) 1 8
    (by norm_num [DBNConfig.num_states]) (by norm_num) (by decide)
  exact ⟨h.1, h.2 1920⟩

/-- C5 counterexample: a valid configuration (one beat state, one tempo
state, lambda 2) and activations `[1, 1]` make every emission zero, so no
back-tracking cell is ever written; the path is then read from
uninitialised `np.empty` cells (modelled by `junk = 5`) and contains the
entry 5, outside `[0, num_states) = [0, 1)`. -/
theorem c5_counterexample :
    dbn_viterbi (DBNConfig.mk 1 [1] (1/125) 2) (fun _ _ => 5) [0] [1, 1] =
      Except.ok [5, 0] ∧
    (DBNConfig.mk 1 [1] (1/125) 2).num_states = 1 := by
  constructor
  · norm_num [dbn_viterbi, dbn_run, dbn_step, dbn_cands, dbn_observation,
      DBNConfig.num_states, updateCell, candScore, u32, List.range_succ,
      dbn_backtrack, backtrack_read_then_step, listArgmax, listArgmaxAux,
      listMaxQ, Int.toNat, List.getD_eq_getElem?_getD, List.getElem?_replicate]
  · rfl

/-- C5 amended: the returned path always has one entry per activation
frame; and provided the final frame's raw Viterbi vector has a nonzero
maximum (so the back-tracking chain only reads cells the forward pass
wrote), every entry of the path is a state index in `[0, num_states)`.
When some frame degenerates to all-zero scores the path can contain
contents of unwritten (uninitialised) cells, as the counterexample
shows. -/
theorem c5_amended_path_length_range (c : DBNConfig) (junk : ℕ → ℕ → ℕ)
    (junk0 : List ℚ) (acts : List ℚ) (path : List ℕ)
    (hok : dbn_viterbi c junk junk0 acts = Except.ok path) :
    path.length = acts.length ∧
    (0 < c.num_states → acts ≠ [] →
      listMaxQ (dbn_run c junk junk0 acts).current_viterbi ≠ 0 →
      ∀ x ∈ path, x < c.num_states) := by
  unfold dbn_viterbi at hok
  by_cases h : 65535 < c.num_states
  · rw [if_pos h] at hok
    cases hok
  · rw [if_neg h] at hok
    have hpath : path = dbn_backtrack (dbn_run c junk junk0 acts).bps
        (listArgmax (dbn_run c junk junk0 acts).current_viterbi) := by
      injection hok with h'
      exact h'.symm
    constructor
    · rw [hpath, dbn_backtrack_length, dbn_run_bps_length]
    · intro h0 hne hmax
      have hn : 0 < c.num_beat_states := by
        rcases Nat.eq_zero_or_pos c.num_beat_states with hz | hp
        · rw [DBNConfig.num_states, hz, zero_mul] at h0
          exact absurd h0 (lt_irrefl 0)
        · exact hp
      have hlen : (dbn_run c junk junk0 acts).current_viterbi.length = c.num_states :=
        dbn_run_current_length c junk junk0 acts hne
      have hvne : (dbn_run c junk junk0 acts).current_viterbi ≠ [] := by
        intro hh
        rw [hh] at hlen
        rw [List.length_nil] at hlen
        omega
      obtain ⟨hgd, hargl⟩ := listArgmax_spec _ hvne
      have hne0 : (dbn_run c junk junk0 acts).current_viterbi.getD
          (listArgmax (dbn_run c junk junk0 acts).current_viterbi) 0 ≠ 0 := by
        rw [hgd]
        exact hmax
      have hal : listArgmax (dbn_run c junk junk0 acts).current_viterbi < c.num_states := by
        rw [← hlen]
        exact hargl
      intro x hx
      exact dbn_range_master c junk junk0 hn acts hne _ hal hne0 x (hpath ▸ hx)

/-- Witness for C5 amended on a one-frame decode with a positive final
maximum. -/
theorem c5_amended_path_length_range_witness :
    ([1] : List ℕ).length = [(1 : ℚ)/4].length ∧
    ∀ x ∈ ([1] : List ℕ), x < (DBNConfig.mk 2 [1] 0 2).num_states := by
  have h := c5_amended_path_length_range (DBNConfig.mk 2 [1] 0 2) (fun _ _ => 0)
    [0, 0] [1/4] [1]
    (by norm_num [dbn_viterbi, dbn_run, dbn_step, dbn_cands, dbn_observation,
      DBNConfig.num_states, updateCell, candScore, u32, List.range_succ,
      dbn_backtrack, backtrack_read_then_step, listArgmax, listArgmaxAux,
      listMaxQ, Int.toNat, List.getD_eq_getElem?_getD, List.getElem?_replicate])
  refine ⟨h.1, h.2 (by norm_num [DBNConfig.num_states]) (by norm_num) ?_⟩
  norm_num [dbn_run, dbn_step, dbn_cands, dbn_observation,
    DBNConfig.num_states, updateCell, candScore, u32, List.range_succ,
    listMaxQ, Int.toNat, List.getD_eq_getElem?_getD, List.getElem?_replicate]

/-- C9: in `correct` mode, on a non-empty decoded path (with one raw
observation per frame), the `beats` pipeline — change points of the
beat-range mask, 0 prepended when frame 0 is in range, the length
appended when the last frame is, consecutive pairing, first argmax of the
raw observations per pair — returns exactly one representative per
maximal contiguous run of frames whose beat phase is below
`num_beat_states / observation_lambda` (the code's integer division, as
compiled), runs at the borders included, each run the half-open
`[left, right)`; and each representative lies inside its run and attains
the maximal raw activation there. -/
theorem c9_beats_correct_runs (path : List ℕ) (obs : List ℚ) (nbs lam : ℕ)
    (hne : path ≠ []) (hlen : obs.length = path.length) :
    dbn_beats_correct path obs nbs lam =
      (maximal_runs (beat_range_list path nbs lam)).map
        (fun pr => slice_argmax obs pr.1 pr.2) ∧
    ∀ pr ∈ maximal_runs (beat_range_list path nbs lam),
      pr.1 ≤ slice_argmax obs pr.1 pr.2 ∧ slice_argmax obs pr.1 pr.2 < pr.2 ∧
      ∀ i, pr.1 ≤ i → i < pr.2 →
        obs.getD i 0 ≤ obs.getD (slice_argmax obs pr.1 pr.2) 0 := by
  have hbne : beat_range_list path nbs lam ≠ [] := by
    intro h
    apply hne
    have := congrArg List.length h
    rw [beat_range_list, List.length_map, List.length_nil] at this
    exact List.length_eq_zero.mp this
  have hblen : (beat_range_list path nbs lam).length = path.length := by
    rw [beat_range_list, List.length_map]
  constructor
  · rw [dbn_beats_correct, pairup_region_bounds _ hbne]
  · intro pr hpr
    obtain ⟨h1, h2⟩ := maximal_runs_bounds _ pr hpr
    have hr : pr.2 ≤ obs.length := by
      rw [hlen, ← hblen]
      exact h2
    obtain ⟨hm1, hm2⟩ := slice_argmax_mem obs pr.1 pr.2 h1 hr
    exact ⟨hm1, hm2, slice_argmax_is_max obs pr.1 pr.2 h1 hr⟩

/-- Witness for C9 on the spec's concrete scenario: activations
`[0.1, 0.9, 0.1, 0.9]`, decoded path `[3, 0, 1, 2]`, 4 beat states,
lambda 4 — the single beat run is `[1, 2)` and frame 1 is returned. -/
theorem c9_beats_correct_runs_witness :
    dbn_beats_correct [3, 0, 1, 2] [1/10, 9/10, 1/10, 9/10] 4 4 =
      (maximal_runs (beat_range_list [3, 0, 1, 2] 4 4)).map
        (fun pr => slice_argmax [1/10, 9/10, 1/10, 9/10] pr.1 pr.2) ∧
    ∀ pr ∈ maximal_runs (beat_range_list [3, 0, 1, 2] 4 4),
      pr.1 ≤ slice_argmax [1/10, 9/10, 1/10, 9/10] pr.1 pr.2 ∧
      slice_argmax [1/10, 9/10, 1/10, 9/10] pr.1 pr.2 < pr.2 ∧
      ∀ i, pr.1 ≤ i → i < pr.2 →
        ([1/10, 9/10, 1/10, 9/10] : List ℚ).getD i 0 ≤
          ([1/10, 9/10, 1/10, 9/10] : List ℚ).getD
            (slice_argmax [1/10, 9/10, 1/10, 9/10] pr.1 pr.2) 0 :=
  c9_beats_correct_runs [3, 0, 1, 2] [1/10, 9/10, 1/10, 9/10] 4 4
    (by decide) (by decide)

/-- C1 counterexample.  Windowed decoder: `pi = [1,1]`,
`transition = [1]`, `norm_factor = [1,1]`, `activations = [1,1]`,
`tau = 2` — one beat, no loop iteration; the returned value is
`log(1/2)` (the frame-0 normalisation sum 2 is never added to
`log_sum`), while the exact total path log-probability of the returned
path `[0]` is `log(pi[0] * activations[0]) = log 1 = 0`.  Composite
decoder: `num_beat_states = 4`, one tempo state, lambda 2, activation
`1/4` — the code adds the log of the *unnormalised* final maximum 3/4,
not of the normalised maximum 3/8, so the returned float differs from
the claim's `running total + log(max of the normalised final vector)`. -/
theorem c1_counterexample :
    (((crf_viterbi [1, 1] [1] [1, 1] [1, 1] 2 (fun _ _ => 0) 0).2.2.1.map
        fun q => Real.log ((q : ℚ) : ℝ)).sum +
      Real.log (((crf_viterbi [1, 1] [1] [1, 1] [1, 1] 2 (fun _ _ => 0) 0).2.1 : ℚ) : ℝ) ≠
    Real.log ((crf_path_product [1, 1] [1] [1, 1] [1, 1]
        (crf_viterbi [1, 1] [1] [1, 1] [1, 1] 2 (fun _ _ => 0) 0).1 : ℚ) : ℝ)) ∧
    (((dbn_run (DBNConfig.mk 4 [1] 0 2) (fun _ _ => 0) [0, 0, 0, 0] [1/4]).sums.map
        fun q => Real.log ((q : ℚ) : ℝ)).sum +
      Real.log ((listMaxQ (dbn_run (DBNConfig.mk 4 [1] 0 2) (fun _ _ => 0)
        [0, 0, 0, 0] [1/4]).current_viterbi : ℚ) : ℝ) ≠
    ((dbn_run (DBNConfig.mk 4 [1] 0 2) (fun _ _ => 0) [0, 0, 0, 0] [1/4]).sums.map
        fun q => Real.log ((q : ℚ) : ℝ)).sum +
      Real.log ((listMaxQ (dbn_run (DBNConfig.mk 4 [1] 0 2) (fun _ _ => 0)
        [0, 0, 0, 0] [1/4]).prev_viterbi : ℚ) : ℝ)) := by
  constructor
  · have hR : crf_viterbi [1, 1] [1] [1, 1] [1, 1] 2 (fun _ _ => 0) 0 =
        ([0], 1/2, [], 2) := by
      norm_num [crf_viterbi, crf_run, crf_init, crf_step, crf_cands, crfFinal,
        updateCell, candScore, List.range_succ, crf_backtrack, backtrack_steps]
    rw [hR]
    have hprod : crf_path_product [1, 1] [1] [1, 1] [1, 1] [0] = 1 := by
      norm_num [crf_path_product, crf_path_steps]
    dsimp only
    rw [hprod]
    simp only [List.map_nil, List.sum_nil, zero_add, Rat.cast_one, Real.log_one]
    have : Real.log (((1 : ℚ)/2 : ℚ) : ℝ) < 0 := by
      apply Real.log_neg <;> norm_num
    exact ne_of_lt this
  · have h1 : (dbn_run (DBNConfig.mk 4 [1] 0 2) (fun _ _ => 0)
        [0, 0, 0, 0] [1/4]).sums = [2] := by
      norm_num [dbn_run, dbn_step, dbn_cands, dbn_observation,
        DBNConfig.num_states, updateCell, candScore, u32, List.range_succ,
        Int.toNat, List.getD_eq_getElem?_getD, List.getElem?_replicate]
    have h2 : listMaxQ (dbn_run (DBNConfig.mk 4 [1] 0 2) (fun _ _ => 0)
        [0, 0, 0, 0] [1/4]).current_viterbi = 3/4 := by
      norm_num [dbn_run, dbn_step, dbn_cands, dbn_observation,
        DBNConfig.num_states, updateCell, candScore, u32, List.range_succ,
        listMaxQ, Int.toNat, List.getD_eq_getElem?_getD, List.getElem?_replicate]
    have h3 : listMaxQ (dbn_run (DBNConfig.mk 4 [1] 0 2) (fun _ _ => 0)
        [0, 0, 0, 0] [1/4]).prev_viterbi = 3/8 := by
      norm_num [dbn_run, dbn_step, dbn_cands, dbn_observation,
        DBNConfig.num_states, updateCell, candScore, u32, List.range_succ,
        listMaxQ, Int.toNat, List.getD_eq_getElem?_getD, List.getElem?_replicate]
    rw [h1, h2, h3]
    intro h
    have hc := add_left_cancel h
    have h34 : (((3 : ℚ)/4 : ℚ) : ℝ) ∈ Set.Ioi (0 : ℝ) := by
      rw [Set.mem_Ioi]; norm_num
    have h38 : (((3 : ℚ)/8 : ℚ) : ℝ) ∈ Set.Ioi (0 : ℝ) := by
      rw [Set.mem_Ioi]; norm_num
    have := Real.log_injOn_pos h34 h38 hc
    norm_num at this

/-- C1 amended.  Both L1-normalised decoders divide every frame vector by
its sum after computing it, but neither returns the claim's quantity, and
neither equals the exact total path log-probability:

* `crf_viterbi` accumulates the logs of all *loop* sums (the frame-0
  normalisation sum `sum_0` is never added) and returns that total plus
  the log of the maximum of the final **normalised** vector; for every
  input with nonnegative `pi` and activations whose normalisation sums
  are all nonzero this equals the exact total path log-probability of
  the returned path **minus `log sum_0`**.

* `BeatTrackingDynamicBayesianNetwork.viterbi` accumulates the logs of
  all frame sums and then adds the log of the maximum of the final
  **unnormalised** vector; for every nonempty activation sequence in
  `[0,1]` with `0 ≤ tempo_change_probability ≤ 2/3` and all frame sums
  nonzero this equals the exact total path log-probability of the
  returned path **plus the log of the final frame's sum**. -/
theorem c1_amended_l1_logprob :
    (∀ (pi transition norm_factor activations : List ℚ) (tau : ℕ)
      (junk : ℕ → ℕ → ℕ) (junk_state : ℕ),
      (∀ x ∈ pi, 0 ≤ x) → (∀ x ∈ activations, 0 ≤ x) →
      (crf_init pi activations).v_c.sum ≠ 0 →
      (∀ S ∈ (crf_viterbi pi transition norm_factor activations tau junk
        junk_state).2.2.1, S ≠ 0) →
      ((crf_viterbi pi transition norm_factor activations tau junk
          junk_state).2.2.1.map fun q => Real.log ((q : ℚ) : ℝ)).sum +
        Real.log (((crf_viterbi pi transition norm_factor activations tau junk
          junk_state).2.1 : ℚ) : ℝ) =
      Real.log ((crf_path_product pi transition norm_factor activations
          (crf_viterbi pi transition norm_factor activations tau junk
            junk_state).1 : ℚ) : ℝ) -
        Real.log (((crf_viterbi pi transition norm_factor activations tau junk
          junk_state).2.2.2 : ℚ) : ℝ)) ∧
    (∀ (c : DBNConfig) (junk : ℕ → ℕ → ℕ) (junk0 : List ℚ) (acts : List ℚ),
      acts ≠ [] → (∀ a ∈ acts, 0 ≤ a ∧ a ≤ 1) → 0 < c.num_states →
      0 ≤ c.tempo_change_probability → c.tempo_change_probability ≤ 2/3 →
      (∀ S ∈ (dbn_run c junk junk0 acts).sums, S ≠ 0) →
      ((dbn_run c junk junk0 acts).sums.map fun q => Real.log ((q : ℚ) : ℝ)).sum +
        Real.log ((listMaxQ (dbn_run c junk junk0 acts).current_viterbi : ℚ) : ℝ) =
      Real.log ((dbn_path_product c acts
          (dbn_backtrack (dbn_run c junk junk0 acts).bps
            (listArgmax (dbn_run c junk junk0 acts).current_viterbi)) : ℚ) : ℝ) +
        Real.log (((dbn_run c junk junk0 acts).current_viterbi.sum : ℚ) : ℝ)) := by
  constructor
  · intro pi transition norm_factor activations tau junk js hpi hact hS0 hsums
    have hproj : crf_viterbi pi transition norm_factor activations tau junk js =
        (crf_backtrack (crf_run transition norm_factor activations junk
            (crf_init pi activations) (activations.length / tau - 1)).bps
          (crfFinal (crf_run transition norm_factor activations junk
            (crf_init pi activations) (activations.length / tau - 1)).v_p js).1,
         (crfFinal (crf_run transition norm_factor activations junk
            (crf_init pi activations) (activations.length / tau - 1)).v_p js).2,
         (crf_run transition norm_factor activations junk
            (crf_init pi activations) (activations.length / tau - 1)).sums,
         (crf_init pi activations).v_c.sum) := rfl
    rw [hproj] at hsums ⊢
    dsimp only at hsums ⊢
    set K := activations.length / tau - 1 with hK
    set st := crf_run transition norm_factor activations junk
      (crf_init pi activations) K with hst
    set S0 := (crf_init pi activations).v_c.sum with hS0def
    obtain ⟨sh1, sh2⟩ := crf_run_shape transition norm_factor activations junk pi K
    rw [← hst] at sh1 sh2
    rw [← hS0def] at sh2
    have hvc_nn : ∀ x ∈ st.v_c, 0 ≤ x :=
      crf_run_vc_nonneg pi transition norm_factor activations junk hpi hact K
    have hsums_nn : ∀ S ∈ st.sums, 0 ≤ S :=
      crf_run_sums_nonneg pi transition norm_factor activations junk K
    have hSK_mem : st.v_c.sum ∈ S0 :: st.sums := by
      rw [sh2]
      exact List.mem_append_right _ (List.mem_singleton_self _)
    have hSK_ne : st.v_c.sum ≠ 0 := by
      rcases List.mem_cons.mp hSK_mem with h | h
      · rw [h]; exact hS0
      · exact hsums _ h
    have hSK_pos : 0 < st.v_c.sum := sum_pos_of_nonneg_ne _ hvc_nn hSK_ne
    have h00 : ∀ x ∈ (crf_init pi activations).v_c, 0 ≤ x :=
      crf_run_vc_nonneg pi transition norm_factor activations junk hpi hact 0
    have hS0_pos : 0 < S0 := sum_pos_of_nonneg_ne _ h00 hS0
    have hvp_nn : ∀ x ∈ st.v_p, 0 ≤ x := by
      rw [sh1]
      intro x hx
      rcases List.mem_map.mp hx with ⟨y, hy, rfl⟩
      exact div_nonneg (hvc_nn y hy) (le_of_lt hSK_pos)
    have hex : ∃ x ∈ st.v_p, 0 < x := by
      have : ∃ y ∈ st.v_c, y ≠ 0 := by
        by_contra hcon
        push_neg at hcon
        exact hSK_ne (List.sum_eq_zero hcon)
      obtain ⟨y, hy, hy0⟩ := this
      refine ⟨y / st.v_c.sum, ?_, ?_⟩
      · rw [sh1]
        exact List.mem_map_of_mem _ hy
      · exact div_pos (lt_of_le_of_ne (hvc_nn y hy) (Ne.symm hy0)) hSK_pos
    obtain ⟨hfd, hfm, hfl⟩ := crfFinal_spec st.v_p js hvp_nn hex
    have hfin_pos : 0 < (crfFinal st.v_p js).2 := by
      rw [hfm]
      obtain ⟨x, hxv, hx⟩ := hex
      exact lt_of_lt_of_le hx (listMaxQ_mem_le _ x hxv)
    have hfl' : (crfFinal st.v_p js).1 < activations.length := by
      have hl : st.v_p.length = activations.length := by
        rw [sh1, List.length_map]
        exact crf_run_vc_length pi transition norm_factor activations junk K
      rw [← hl]
      exact hfl
    have hvcfd : st.v_c.getD (crfFinal st.v_p js).1 0 =
        (crfFinal st.v_p js).2 * st.v_c.sum := by
      have h1 : st.v_p.getD (crfFinal st.v_p js).1 0 =
          st.v_c.getD (crfFinal st.v_p js).1 0 / st.v_c.sum := by
        rw [sh1]
        exact getD_map_div _ _ _
      rw [h1] at hfd
      exact (div_eq_iff hSK_ne).mp hfd
    have hvc_ne : st.v_c.getD (crfFinal st.v_p js).1 0 ≠ 0 := by
      rw [hvcfd]
      exact mul_ne_zero (ne_of_gt hfin_pos) hSK_ne
    obtain ⟨-, -, -, -, mprod, mz⟩ := crf_master pi transition norm_factor
      activations junk K (crfFinal st.v_p js).1 hfl' hvc_ne
    rw [← hst, ← hS0def] at mprod mz
    have hsums_pos : ∀ S ∈ st.sums, 0 < S := fun S hS =>
      lt_of_le_of_ne (hsums_nn S hS) (Ne.symm (hsums S hS))
    have hprodq : crf_path_product pi transition norm_factor activations
        (crf_backtrack st.bps (crfFinal st.v_p js).1) =
        (crfFinal st.v_p js).2 * (S0 * st.sums.prod) := by
      rw [mprod, hvcfd]
      have hps : S0 * st.sums.prod = ((S0 :: st.sums).dropLast).prod * st.v_c.sum := by
        have h := congrArg List.prod sh2
        rw [List.prod_cons, List.prod_append, List.prod_singleton] at h
        exact h
      rw [hps]
      ring
    rw [hprodq]
    have hcast : ((((crfFinal st.v_p js).2 * (S0 * st.sums.prod) : ℚ)) : ℝ) =
        (((crfFinal st.v_p js).2 : ℚ) : ℝ) * (((S0 : ℚ) : ℝ) * ((st.sums.prod : ℚ) : ℝ)) := by
      push_cast
      ring
    have hsprod_pos : (0 : ℚ) < st.sums.prod := List.prod_pos hsums_pos
    rw [hcast, Real.log_mul, Real.log_mul]
    · rw [log_list_prod st.sums hsums_pos]
      ring
    · exact_mod_cast ne_of_gt hS0_pos
    · exact_mod_cast ne_of_gt hsprod_pos
    · exact_mod_cast ne_of_gt hfin_pos
    · have : (0 : ℚ) < S0 * st.sums.prod := mul_pos hS0_pos hsprod_pos
      exact_mod_cast ne_of_gt this
  · intro c junk junk0 acts hne hb h0 hp0 hp1 hsums
    set st := dbn_run c junk junk0 acts with hst
    have hn : 0 < c.num_beat_states := by
      rcases Nat.eq_zero_or_pos c.num_beat_states with hz | hp
      · rw [DBNConfig.num_states, hz, zero_mul] at h0
        exact absurd h0 (lt_irrefl 0)
      · exact hp
    have hcur_nn : ∀ x ∈ st.current_viterbi, 0 ≤ x :=
      dbn_run_current_nonneg c junk junk0 acts hne
    have hlen : st.current_viterbi.length = c.num_states :=
      dbn_run_current_length c junk junk0 acts hne
    have hvne : st.current_viterbi ≠ [] := by
      intro hh
      rw [hh, List.length_nil] at hlen
      omega
    obtain ⟨-, sh2⟩ := dbn_run_shape c junk junk0 acts hne
    rw [← hst] at sh2
    have hSK_mem : st.current_viterbi.sum ∈ st.sums := by
      rw [sh2]
      exact List.mem_append_right _ (List.mem_singleton_self _)
    have hSK_ne : st.current_viterbi.sum ≠ 0 := hsums _ hSK_mem
    have hmax_pos : 0 < listMaxQ st.current_viterbi :=
      listMaxQ_pos_of_sum _ hcur_nn hSK_ne
    obtain ⟨hgd, hargl⟩ := listArgmax_spec _ hvne
    have hne0 : st.current_viterbi.getD (listArgmax st.current_viterbi) 0 ≠ 0 := by
      rw [hgd]
      exact ne_of_gt hmax_pos
    have hal : listArgmax st.current_viterbi < c.num_states := by
      rw [← hlen]
      exact hargl
    obtain ⟨-, -, -, -, mprod, -⟩ := dbn_master c junk junk0 hn hp0 hp1 acts hne hb
      (listArgmax st.current_viterbi) hal hne0
    rw [← hst] at mprod
    have hsums_nn : ∀ S ∈ st.sums, 0 ≤ S := dbn_run_sums_nonneg c junk junk0 acts
    have hsums_pos : ∀ S ∈ st.sums, 0 < S := fun S hS =>
      lt_of_le_of_ne (hsums_nn S hS) (Ne.symm (hsums S hS))
    have hdl_pos : ∀ S ∈ st.sums.dropLast, 0 < S := fun S hS =>
      hsums_pos S ((List.dropLast_sublist st.sums).subset hS)
    have hSK_pos : 0 < st.current_viterbi.sum :=
      hsums_pos _ hSK_mem
    rw [mprod, hgd]
    have hdlprod_pos : (0 : ℚ) < st.sums.dropLast.prod := List.prod_pos hdl_pos
    have hcast : (((listMaxQ st.current_viterbi * st.sums.dropLast.prod : ℚ)) : ℝ) =
        ((listMaxQ st.current_viterbi : ℚ) : ℝ) * ((st.sums.dropLast.prod : ℚ) : ℝ) := by
      push_cast
      ring
    rw [hcast, Real.log_mul (by exact_mod_cast ne_of_gt hmax_pos)
      (by exact_mod_cast ne_of_gt hdlprod_pos)]
    have hsum_split : (st.sums.map fun q => Real.log ((q : ℚ) : ℝ)).sum =
        (st.sums.dropLast.map fun q => Real.log ((q : ℚ) : ℝ)).sum +
          Real.log ((st.current_viterbi.sum : ℚ) : ℝ) := by
      conv_lhs => rw [sh2]
      rw [List.map_append, List.sum_append]
      simp
    rw [hsum_split, log_list_prod st.sums.dropLast hdl_pos]
    ring

/-- Witness for C1 amended: both equalities at concrete one-beat inputs
with all normalisation sums nonzero. -/
theorem c1_amended_l1_logprob_witness :
    (((crf_viterbi [1, 1] [1] [1, 1] [1, 1] 1 (fun _ _ => 0) 0).2.2.1.map
        fun q => Real.log ((q : ℚ) : ℝ)).sum +
      Real.log (((crf_viterbi [1, 1] [1] [1, 1] [1, 1] 1 (fun _ _ => 0) 0).2.1 : ℚ) : ℝ) =
      Real.log ((crf_path_product [1, 1] [1] [1, 1] [1, 1]
          (crf_viterbi [1, 1] [1] [1, 1] [1, 1] 1 (fun _ _ => 0) 0).1 : ℚ) : ℝ) -
        Real.log (((crf_viterbi [1, 1] [1] [1, 1] [1, 1] 1
          (fun _ _ => 0) 0).2.2.2 : ℚ) : ℝ)) ∧
    (((dbn_run (DBNConfig.mk 2 [1] 0 2) (fun _ _ => 0) [0, 0] [1/4]).sums.map
        fun q => Real.log ((q : ℚ) : ℝ)).sum +
      Real.log ((listMaxQ (dbn_run (DBNConfig.mk 2 [1] 0 2) (fun _ _ => 0)
        [0, 0] [1/4]).current_viterbi : ℚ) : ℝ) =
      Real.log ((dbn_path_product (DBNConfig.mk 2 [1] 0 2) [1/4]
          (dbn_backtrack (dbn_run (DBNConfig.mk 2 [1] 0 2) (fun _ _ => 0)
              [0, 0] [1/4]).bps
            (listArgmax (dbn_run (DBNConfig.mk 2 [1] 0 2) (fun _ _ => 0)
              [0, 0] [1/4]).current_viterbi)) : ℚ) : ℝ) +
        Real.log (((dbn_run (DBNConfig.mk 2 [1] 0 2) (fun _ _ => 0)
          [0, 0] [1/4]).current_viterbi.sum : ℚ) : ℝ)) := by
  constructor
  · exact c1_amended_l1_logprob.1 [1, 1] [1] [1, 1] [1, 1] 1 (fun _ _ => 0) 0
      (by norm_num) (by norm_num)
      (by norm_num [crf_init, List.range_succ])
      (by norm_num [crf_viterbi, crf_run, crf_init, crf_step, crf_cands, crfFinal,
        updateCell, candScore, List.range_succ, crf_backtrack, backtrack_steps])
  · exact c1_amended_l1_logprob.2 (DBNConfig.mk 2 [1] 0 2) (fun _ _ => 0)
      [0, 0] [1/4] (by norm_num) (by norm_num)
      (by norm_num [DBNConfig.num_states]) (by norm_num) (by norm_num)
      (by norm_num [dbn_run, dbn_step, dbn_cands, dbn_observation,
        DBNConfig.num_states, updateCell, candScore, u32, List.range_succ,
        Int.toNat, List.getD_eq_getElem?_getD, List.getElem?_replicate])
